import Mathlib

/-!
Shallow embedding of the `mir-explorer` crate (files `src/graph.rs`,
`src/layout.rs`, `src/input.rs`, `src/app.rs`) and proofs about it.

Modelling conventions:
* Rust `usize` indices are `Nat`; `f64` coordinates are modelled as exact
  rationals `ℚ` (every constant in the source is a small decimal and every
  operation used on the relevant paths is exact on them).
* `HashMap` is modelled as an association list with single-entry-per-key
  insertion (`hmInsert`); `HashSet` as a `Finset`.  Where the source
  iterates over a `HashMap` (whose iteration order is unspecified) the
  iteration order is an explicit parameter, quantified over all
  permutations of the entries in the determinism theorem.
* A Rust panic (out-of-bounds `v[i]`) is modelled as `Option.none`;
  operations that can panic return `Option`.
* The renderer only issues drawing commands; it is modelled by its
  observable state (canvas width/height used by the viewport code).
-/

/- Core marks rational arithmetic `irreducible`, which blocks `decide` on
concrete states; restore the default reducibility for this file so that
witnesses evaluate. -/
attribute [local semireducible] Rat.add Rat.sub Rat.mul Rat.inv

/-- `graph.rs`: classification of control flow edges. -/
inductive EdgeKind where
  | Normal
  | Cleanup
  | Otherwise
  | Branch
deriving DecidableEq, Repr

/-- `graph.rs`: classification of basic blocks by their role in control flow. -/
inductive BlockRole where
  | Entry
  | Exit
  | BranchPoint
  | MergePoint
  | Linear
  | Cleanup
deriving DecidableEq, Repr

/-- `graph.rs`: a single MIR statement. -/
structure ExplorerStmt where
  mir : String
  annotation : String
deriving DecidableEq, Repr

/-- `graph.rs`: assignment tracking for a local variable. -/
structure ExplorerAssignment where
  block_id : Nat
  value : String
deriving DecidableEq, Repr

/-- `graph.rs`: a local variable with its type and assignments. -/
structure ExplorerLocal where
  name : String
  ty : String
  source_name : Option String
  assignments : List ExplorerAssignment
deriving DecidableEq, Repr

/-- `graph.rs`: an edge in the control flow graph. -/
structure ExplorerEdge where
  target : Nat
  label : String
  kind : EdgeKind
  annotation : String
deriving DecidableEq, Repr

/-- `graph.rs`: the terminator instruction of a basic block. -/
structure ExplorerTerminator where
  kind : String
  mir : String
  annotation : String
  edges : List ExplorerEdge
deriving DecidableEq, Repr

/-- `graph.rs`: a basic block in the control flow graph. -/
structure ExplorerBlock where
  id : Nat
  statements : List ExplorerStmt
  terminator : ExplorerTerminator
  predecessors : List Nat
  role : BlockRole
  summary : String
deriving DecidableEq, Repr

/-- `graph.rs`: a single function with its control flow graph. -/
structure ExplorerFunction where
  name : String
  short_name : String
  blocks : List ExplorerBlock
  locals : List ExplorerLocal
  entry_block : Nat
deriving DecidableEq, Repr

/-- `graph.rs`: complete data for the explorer, loaded from JSON. -/
structure ExplorerData where
  name : String
  functions : List ExplorerFunction
deriving DecidableEq, Repr

/-- `layout.rs`: a positioned node in the layout. -/
structure LayoutNode where
  id : Nat
  x : ℚ
  y : ℚ
  width : ℚ
  height : ℚ
  role : BlockRole
deriving DecidableEq, Repr

/-- `layout.rs`: a routed edge in the layout.  The source fields `from` and
`to` are Lean keywords, hence the trailing underscores. -/
structure LayoutEdge where
  from_ : Nat
  to_ : Nat
  label : String
  kind : EdgeKind
  points : List (ℚ × ℚ)
deriving DecidableEq, Repr

/-- `layout.rs`: complete layout information for a function's CFG.
`bounds` is the bounding box `(min_x, min_y, max_x, max_y)`. -/
structure GraphLayout where
  nodes : List LayoutNode
  edges : List LayoutEdge
  bounds : ℚ × ℚ × ℚ × ℚ
deriving DecidableEq, Repr

def NODE_WIDTH : ℚ := 60
def NODE_HEIGHT : ℚ := 35
def HORIZONTAL_SPACING : ℚ := 80
def VERTICAL_SPACING : ℚ := 100

/-- `HashMap::insert` on an association list: replaces the entry for the key
if present, otherwise appends it, so there is one entry per key. -/
def hmInsert {α : Type} (m : List (Nat × α)) (k : Nat) (v : α) : List (Nat × α) :=
  if (m.lookup k).isSome then
    m.map (fun p => if p.1 = k then (k, v) else p)
  else
    m ++ [(k, v)]

/-- `layout.rs` `from_function`: the successor adjacency map, built by
inserting each block's edge targets keyed by the block's `id`. -/
def buildSuccessors (func : ExplorerFunction) : List (Nat × List Nat) :=
  func.blocks.foldl
    (fun m block => hmInsert m block.id (block.terminator.edges.map (·.target)))
    []

/-- `successors.get(&node)`: a missing key contributes no successors. -/
def succLookup (successors : List (Nat × List Nat)) (node : Nat) : List Nat :=
  (successors.lookup node).getD []

/-- `layer_map.values().max().unwrap_or(0)` (all values are naturals). -/
def valuesMax (m : List (Nat × Nat)) : Nat :=
  (m.map (·.2)).foldl Nat.max 0

/-- All values appearing in the successor map; every node the BFS can ever
enqueue is drawn from this list (used for the termination measure). -/
def allTargets (successors : List (Nat × List Nat)) : List Nat :=
  (successors.map (·.2)).flatten

/-- One step of the inner loop of the BFS in `compute_layers`: visit an
unvisited successor and enqueue it one layer further down. -/
def bfsPush (layer : Nat) (vq : Finset Nat × List (Nat × Nat)) (s : Nat) :
    Finset Nat × List (Nat × Nat) :=
  if s ∈ vq.1 then vq else (insert s vq.1, vq.2 ++ [(s, layer + 1)])

/-- The strictly decreasing termination measure of the BFS loop of
`compute_layers`: unvisited potential targets plus queue length. -/
def bfsMeasure (successors : List (Nat × List Nat)) (visited : Finset Nat)
    (queue : List (Nat × Nat)) : Nat :=
  ((allTargets successors).toFinset \ visited).card + queue.length

/-- `layout.rs` `compute_layers`, BFS loop, with explicit fuel (structural
recursion, so the kernel can evaluate it): pop `(node, layer)` from the
queue, record it in the layer map, and enqueue every unvisited successor
with `layer + 1`, marking it visited.  Returns the layer map.  `bfsLoop`
supplies fuel equal to `bfsMeasure`, which strictly decreases at every
iteration (`bfsPush_measure`), so the out-of-fuel branch is never taken
(`bfsLoopFuel_sufficient`). -/
def bfsLoopFuel (successors : List (Nat × List Nat)) :
    Nat → List (Nat × Nat) → Finset Nat → List (Nat × Nat) → List (Nat × Nat)
  | _, layerMap, _, [] => layerMap
  | 0, layerMap, _, _ :: _ => layerMap
  | fuel + 1, layerMap, visited, (node, layer) :: rest =>
    let lm := hmInsert layerMap node layer
    let vq := (succLookup successors node).foldl (bfsPush layer) (visited, rest)
    bfsLoopFuel successors fuel lm vq.1 vq.2

/-- The BFS loop of `compute_layers` (fuel instantiated with the measure). -/
def bfsLoop (successors : List (Nat × List Nat)) (layerMap : List (Nat × Nat))
    (visited : Finset Nat) (queue : List (Nat × Nat)) : List (Nat × Nat) :=
  bfsLoopFuel successors (bfsMeasure successors visited queue) layerMap visited queue

/-- The layer map right after the BFS of `compute_layers`:
`bfsLoop` started from `queue = [(entry, 0)]`, `visited = {entry}`. -/
def bfsLayerMap (entry : Nat) (successors : List (Nat × List Nat)) : List (Nat × Nat) :=
  bfsLoop successors [] {entry} [(entry, 0)]

/-- `compute_layers` after the unreachable-node pass: every id in
`0..block_count` missing from the BFS layer map is inserted with layer
`max_layer + 1` (`layer_map.entry(id).or_insert(max_layer + 1)`). -/
def finalLayerMap (entry : Nat) (block_count : Nat)
    (successors : List (Nat × List Nat)) : List (Nat × Nat) :=
  let lm := bfsLayerMap entry successors
  let max_layer := valuesMax lm
  (List.range block_count).foldl
    (fun m id => if (m.lookup id).isSome then m else m ++ [(id, max_layer + 1)])
    lm

/-- `layer.sort()`: sort a layer's node ids ascending. -/
def sortLayer (l : List Nat) : List Nat :=
  l.insertionSort (· ≤ ·)

/-- The grouping loop of `compute_layers`
(`for (node, layer) in layer_map { layers[layer].push(node) }` followed by
sorting each layer), iterating the layer map entries in the order given by
`entries`.  A `HashMap` iterates its entries in an unspecified order, so the
order is an explicit parameter here; the determinism theorem shows the
result is the same for every permutation of the entries. -/
def groupLayers (entries : List (Nat × Nat)) (num_layers : Nat) : List (List Nat) :=
  let buckets := entries.foldl
    (fun ls p => ls.set p.2 ((ls.getD p.2 []) ++ [p.1]))
    (List.replicate num_layers [])
  buckets.map sortLayer

/-- `layout.rs` `compute_layers` with an explicit iteration order for the
final layer map (`entries` plays the role of the `HashMap` iteration). -/
def computeLayersOrder (entries : List (Nat × Nat)) : List (List Nat) :=
  let num_layers := valuesMax entries + 1
  groupLayers entries num_layers

/-- `layout.rs` `compute_layers(entry, block_count, successors)`, using the
insertion order of the layer map as the canonical iteration order. -/
def compute_layers (entry : Nat) (block_count : Nat)
    (successors : List (Nat × List Nat)) : List (List Nat) :=
  computeLayersOrder (finalLayerMap entry block_count successors)

/-- The `LayoutNode` the `vec![...; n]` initializer of `position_nodes`
fills the node array with. -/
def defaultLayoutNode : LayoutNode :=
  ⟨0, 0, 0, NODE_WIDTH, NODE_HEIGHT, BlockRole.Linear⟩

/-- `layout.rs` `position_nodes`: place each node of each layer on a row
centred on x = 0, one row per layer.  `none` models the (unreachable in
practice) panic of `func.blocks[node_id]`: the guard checks `node_id`
against the node array length, which always equals `func.blocks.len()`. -/
def positionNodeStep (func : ExplorerFunction) (start_x : ℚ) (layer_idx : Nat)
    (nodes : List LayoutNode) (pi : Nat × Nat) : Option (List LayoutNode) :=
  let pos_in_layer := pi.1
  let node_id := pi.2
  if node_id < nodes.length then
    match func.blocks.get? node_id with
    | none => none
    | some blk =>
      some (nodes.set node_id
        ⟨node_id,
         start_x + (pos_in_layer : ℚ) * (NODE_WIDTH + HORIZONTAL_SPACING),
         (layer_idx : ℚ) * VERTICAL_SPACING,
         NODE_WIDTH, NODE_HEIGHT, blk.role⟩)
  else
    some nodes

/-- One layer of `position_nodes`: the row is centred on x = 0. -/
def positionLayer (func : ExplorerFunction) (nodes : List LayoutNode)
    (li : Nat × List Nat) : Option (List LayoutNode) :=
  let layer_idx := li.1
  let layer := li.2
  let layer_width : ℚ :=
    (layer.length : ℚ) * (NODE_WIDTH + HORIZONTAL_SPACING) - HORIZONTAL_SPACING
  let start_x : ℚ := -layer_width / 2
  layer.enum.foldlM (positionNodeStep func start_x layer_idx) nodes

def position_nodes (func : ExplorerFunction) (layers : List (List Nat)) :
    Option (List LayoutNode) :=
  layers.enum.foldlM (positionLayer func)
    (List.replicate func.blocks.length defaultLayoutNode)

/-- `layout.rs` `route_forward_edge`: 4-point polyline going down. -/
def route_forward_edge (from_x from_y to_x to_y : ℚ) : List (ℚ × ℚ) :=
  let mid_y := (from_y + to_y) / 2
  [(from_x, from_y), (from_x, mid_y), (to_x, mid_y), (to_x, to_y)]

/-- `layout.rs` `route_back_edge`: 6-point polyline detouring to the right. -/
def route_back_edge (from_ to_ : LayoutNode) : List (ℚ × ℚ) :=
  let from_center_x := from_.x + from_.width / 2
  let from_bottom_y := from_.y + from_.height
  let to_center_x := to_.x + to_.width / 2
  let to_bottom_y := to_.y + to_.height
  let offset : ℚ := 30
  let right_x := max from_.x to_.x + from_.width + offset
  [(from_center_x, from_bottom_y),
   (from_center_x, from_bottom_y + offset),
   (right_x, from_bottom_y + offset),
   (right_x, to_bottom_y + offset),
   (to_center_x, to_bottom_y + offset),
   (to_center_x, to_bottom_y)]

/-- `layout.rs` `route_edges`: one routed edge per `EdgeDoc`, in
block-then-edge order.  `none` models the `&nodes[from]` / `&nodes[to]`
panics on an out-of-range block id or edge target. -/
def route_edges (func : ExplorerFunction) (nodes : List LayoutNode) :
    Option (List LayoutEdge) :=
  func.blocks.foldlM
    (fun edges block =>
      match nodes.get? block.id with
      | none => none
      | some from_node =>
        let from_center_x := from_node.x + from_node.width / 2
        let from_bottom_y := from_node.y + from_node.height
        block.terminator.edges.foldlM
          (fun (edges : List LayoutEdge) e =>
            match nodes.get? e.target with
            | none => none
            | some to_node =>
              let to_center_x := to_node.x + to_node.width / 2
              let to_top_y := to_node.y
              let points :=
                if to_node.y ≤ from_node.y then
                  route_back_edge from_node to_node
                else
                  route_forward_edge from_center_x from_bottom_y to_center_x to_top_y
              some (edges ++ [⟨block.id, e.target, e.label, e.kind, points⟩]))
          edges)
    []

/-- `layout.rs` `compute_bounds`: min/max over all node rectangles.  The
`f64::INFINITY` / `f64::NEG_INFINITY` starting accumulators are modelled by
`⊤ : WithTop ℚ` / `⊥ : WithBot ℚ`; `untop'`/`unbot'` extract the finite
value, which for a non-empty node list the fold always produces. -/
def boundsStep (b : WithTop ℚ × WithTop ℚ × WithBot ℚ × WithBot ℚ)
    (nd : LayoutNode) : WithTop ℚ × WithTop ℚ × WithBot ℚ × WithBot ℚ :=
  (min b.1 (nd.x : WithTop ℚ),
   min b.2.1 (nd.y : WithTop ℚ),
   max b.2.2.1 ((nd.x + nd.width : ℚ) : WithBot ℚ),
   max b.2.2.2 ((nd.y + nd.height : ℚ) : WithBot ℚ))

def compute_bounds (nodes : List LayoutNode) : ℚ × ℚ × ℚ × ℚ :=
  if nodes.isEmpty then (0, 0, 0, 0) else
  let folded := nodes.foldl boundsStep (⊤, ⊤, ⊥, ⊥)
  (folded.1.untop' 0, folded.2.1.untop' 0, folded.2.2.1.unbot' 0, folded.2.2.2.unbot' 0)

/-- `layout.rs` `from_function` with an explicit iteration order for the
layer map grouping (see `groupLayers`).  `none` models a layout panic. -/
def fromFunctionOrder (func : ExplorerFunction) (entries : List (Nat × Nat)) :
    Option GraphLayout :=
  let block_count := func.blocks.length
  if block_count = 0 then
    some ⟨[], [], (0, 0, 0, 0)⟩
  else
    let layers := computeLayersOrder entries
    match position_nodes func layers with
    | none => none
    | some nodes =>
      match route_edges func nodes with
      | none => none
      | some edges => some ⟨nodes, edges, compute_bounds nodes⟩

/-- `layout.rs` `GraphLayout::from_function`. -/
def from_function (func : ExplorerFunction) : Option GraphLayout :=
  fromFunctionOrder func
    (finalLayerMap func.entry_block func.blocks.length (buildSuccessors func))

/-- `input.rs`: actions that can be triggered by user input. -/
inductive InputAction where
  | GoBack
  | MoveDown
  | MoveUp
  | MoveRight
  | SelectEdge (n : Nat)
  | Reset
  | FocusSearch
  | NoAction
deriving DecidableEq, Repr

/-- `input.rs` `parse_key`: key string to action (the source variant `None`
is `NoAction` here, since `Option.None` shadows the name). -/
def parse_key (key : String) : InputAction :=
  if key = "h" ∨ key = "ArrowLeft" ∨ key = "Backspace" then .GoBack
  else if key = "j" ∨ key = "ArrowDown" then .MoveDown
  else if key = "k" ∨ key = "ArrowUp" then .MoveUp
  else if key = "l" ∨ key = "ArrowRight" ∨ key = "Enter" then .MoveRight
  else if key = "Escape" then .Reset
  else if key = "/" then .FocusSearch
  else if key = "1" then .SelectEdge 0
  else if key = "2" then .SelectEdge 1
  else if key = "3" then .SelectEdge 2
  else if key = "4" then .SelectEdge 3
  else if key = "5" then .SelectEdge 4
  else if key = "6" then .SelectEdge 5
  else if key = "7" then .SelectEdge 6
  else if key = "8" then .SelectEdge 7
  else if key = "9" then .SelectEdge 8
  else .NoAction

/-- `render.rs` `Renderer`: of the renderer's state only the canvas size is
observable to the controller (`width()` / `height()`); drawing commands have
no effect on the controller state. -/
structure Renderer where
  width : ℚ
  height : ℚ
deriving DecidableEq, Repr

/-- `app.rs` `MirExplorer`: the controller state. -/
structure MirExplorer where
  data : Option ExplorerData
  current_fn_index : Nat
  current_block : Nat
  selected_edge : Nat
  path : List Nat
  layout : Option GraphLayout
  renderer : Renderer
  context_id : String
  scale : ℚ
  offset : ℚ × ℚ
deriving DecidableEq, Repr

namespace MirExplorer

/-- `app.rs` `MirExplorer::new`: the initial state for a resolved canvas. -/
def new (renderer : Renderer) (context_id : String) : MirExplorer :=
  { data := none
    current_fn_index := 0
    current_block := 0
    selected_edge := 0
    path := []
    layout := none
    renderer := renderer
    context_id := context_id
    scale := 1
    offset := (0, 0) }

/-- Rust `x.clamp(lo, hi)` (for `lo ≤ hi`). -/
def clampQ (x lo hi : ℚ) : ℚ :=
  min (max x lo) hi

/-- `app.rs` `fit_to_view_internal`: rescale and recentre so the layout's
bounding box fits the canvas; degenerate boxes leave scale/offset alone. -/
def fit_to_view_internal (s : MirExplorer) : MirExplorer :=
  match s.layout with
  | none => s
  | some layout =>
    let canvas_width := s.renderer.width
    let canvas_height := s.renderer.height
    let min_x := layout.bounds.1
    let min_y := layout.bounds.2.1
    let max_x := layout.bounds.2.2.1
    let max_y := layout.bounds.2.2.2
    let graph_width := max_x - min_x
    let graph_height := max_y - min_y
    if 0 < graph_width ∧ 0 < graph_height then
      let padding : ℚ := 60
      let scale_x := (canvas_width - padding * 2) / graph_width
      let scale_y := (canvas_height - padding * 2) / graph_height
      let scale := clampQ (min scale_x scale_y) (1/2) 2
      let center_x := (min_x + max_x) / 2
      let center_y := (min_y + max_y) / 2
      { s with
        scale := scale
        offset := (canvas_width / 2 - center_x * scale,
                   canvas_height / 2 - center_y * scale) }
    else s

/-- `app.rs` `center_on_block`: recentre the viewport on a node (a missing
layout or node id is a no-op thanks to the `get` guards). -/
def center_on_block (s : MirExplorer) (block_id : Nat) : MirExplorer :=
  match s.layout with
  | none => s
  | some layout =>
    match layout.nodes.get? block_id with
    | none => s
    | some node =>
      { s with
        offset := (s.renderer.width / 2 - (node.x + node.width / 2) * s.scale,
                   s.renderer.height / 2 - (node.y + node.height / 2) * s.scale) }

/-- `app.rs` `render`: issues drawing commands only; no controller state is
touched, so on the state model it is the identity. -/
def render (s : MirExplorer) : MirExplorer := s

/-- `app.rs` `select_function`: out-of-range index is a no-op; otherwise
clear path/selection, recompute the layout, jump to the entry block and
auto-fit.  `none` models a panic inside `GraphLayout::from_function`. -/
def select_function (s : MirExplorer) (index : Nat) : Option MirExplorer :=
  match s.data with
  | none => some s
  | some data =>
    if data.functions.length ≤ index then some s
    else
      match data.functions.get? index with
      | none => none
      | some func =>
        match from_function func with
        | none => none
        | some layout =>
          let s1 := { s with
            current_fn_index := index
            path := []
            selected_edge := 0
            layout := some layout
            current_block := func.entry_block }
          some (render (fit_to_view_internal s1))

/-- `app.rs` `load_json`: the `serde_json::from_str` result is modelled by
the `Option ExplorerData` argument (`none` = malformed JSON or schema
violation).  Returns the new state plus `some errorMessage` on failure
(`Err(JsValue)` in the source); the outer `none` models a panic. -/
def load_json (s : MirExplorer) (parsed : Option ExplorerData) :
    Option (MirExplorer × Option String) :=
  match parsed with
  | none => some (s, some ("JSON parse error"))
  | some data =>
    if data.functions.isEmpty then
      some (s, some ("No functions in data"))
    else
      match select_function { s with data := some data } 0 with
      | none => none
      | some s1 => some (s1, none)

/-- `app.rs` `go_to_block_internal`: out-of-range target is a no-op; else
optionally push the old current block, move, reset the edge selection and
recentre.  `none` models the `data.functions[self.current_fn_index]` panic. -/
def go_to_block_internal (s : MirExplorer) (block_id : Nat) (add_to_path : Bool) :
    Option MirExplorer :=
  match s.data with
  | none => some s
  | some data =>
    match data.functions.get? s.current_fn_index with
    | none => none
    | some func =>
      if func.blocks.length ≤ block_id then some s
      else
        let s1 :=
          if add_to_path ∧ s.current_block ≠ block_id then
            { s with path := s.path ++ [s.current_block] }
          else s
        let s2 := { s1 with current_block := block_id, selected_edge := 0 }
        some (render (center_on_block s2 block_id))

/-- `app.rs` `go_to_block`. -/
def go_to_block (s : MirExplorer) (block_id : Nat) : Option MirExplorer :=
  go_to_block_internal s block_id true

/-- `app.rs` `go_back`: pop the path if non-empty; an empty path is a no-op.
Cannot panic. -/
def go_back (s : MirExplorer) : MirExplorer :=
  match s.path.getLast? with
  | none => s
  | some prev =>
    render (center_on_block
      { s with path := s.path.dropLast, current_block := prev, selected_edge := 0 }
      prev)

/-- `app.rs` `reset`: clear path/selection, then go to the entry block
without recording.  `none` models the `data.functions[...]` panic. -/
def reset (s : MirExplorer) : Option MirExplorer :=
  let s1 := { s with path := ([] : List Nat), selected_edge := 0 }
  match s1.data with
  | none => some s1
  | some data =>
    match data.functions.get? s1.current_fn_index with
    | none => none
    | some func => go_to_block_internal s1 func.entry_block false

/-- `app.rs` `follow_edge`: follow the `edge_index`-th outgoing edge of the
current block if it exists.  `none` models the `func.blocks[self.current_block]`
(or `data.functions[...]`) panic. -/
def follow_edge (s : MirExplorer) (edge_index : Nat) : Option MirExplorer :=
  match s.data with
  | none => some s
  | some data =>
    match data.functions.get? s.current_fn_index with
    | none => none
    | some func =>
      match func.blocks.get? s.current_block with
      | none => none
      | some block =>
        match block.terminator.edges.get? edge_index with
        | none => some s
        | some edge => go_to_block s edge.target

/-- `app.rs` `select_next_edge`: cyclic +1 modulo the current block's edge
count; no-op when the count is zero.  `none` models the indexing panics. -/
def select_next_edge (s : MirExplorer) : Option MirExplorer :=
  match s.data with
  | none => some s
  | some data =>
    match data.functions.get? s.current_fn_index with
    | none => none
    | some func =>
      match func.blocks.get? s.current_block with
      | none => none
      | some block =>
        let edge_count := block.terminator.edges.length
        if 0 < edge_count then
          some (render { s with selected_edge := (s.selected_edge + 1) % edge_count })
        else some s

/-- `app.rs` `select_prev_edge`: cyclic −1 modulo the current block's edge
count; no-op when the count is zero.  `none` models the indexing panics. -/
def select_prev_edge (s : MirExplorer) : Option MirExplorer :=
  match s.data with
  | none => some s
  | some data =>
    match data.functions.get? s.current_fn_index with
    | none => none
    | some func =>
      match func.blocks.get? s.current_block with
      | none => none
      | some block =>
        let edge_count := block.terminator.edges.length
        if 0 < edge_count then
          some (render { s with selected_edge :=
            if s.selected_edge = 0 then edge_count - 1 else s.selected_edge - 1 })
        else some s

/-- `app.rs` `handle_key`: dispatch on `parse_key`; returns the new state
and whether the key was handled. -/
def handle_key (s : MirExplorer) (key : String) : Option (MirExplorer × Bool) :=
  match parse_key key with
  | .GoBack => some (go_back s, true)
  | .Reset => (reset s).map (·, true)
  | .SelectEdge n => (follow_edge s n).map (·, true)
  | .MoveDown => (select_next_edge s).map (·, true)
  | .MoveUp => (select_prev_edge s).map (·, true)
  | .MoveRight => (follow_edge s s.selected_edge).map (·, true)
  | .FocusSearch => some (s, false)
  | .NoAction => some (s, false)

/-- `app.rs` `handle_wheel`: zoom toward the mouse position.  Cannot panic. -/
def handle_wheel (s : MirExplorer) (delta_y mouse_x mouse_y : ℚ) : MirExplorer :=
  let zoom_factor : ℚ := if 0 < delta_y then 9/10 else 11/10
  let new_scale := clampQ (s.scale * zoom_factor) (1/5) 3
  let scale_change := new_scale / s.scale
  render { s with
    offset := (mouse_x - (mouse_x - s.offset.1) * scale_change,
               mouse_y - (mouse_y - s.offset.2) * scale_change)
    scale := new_scale }

/-- `app.rs` `handle_drag`: pan by the drag delta.  Cannot panic. -/
def handle_drag (s : MirExplorer) (delta_x delta_y : ℚ) : MirExplorer :=
  render { s with offset := (s.offset.1 + delta_x, s.offset.2 + delta_y) }

/-- `app.rs` `fit_to_view`.  Cannot panic. -/
def fit_to_view (s : MirExplorer) : MirExplorer :=
  render (fit_to_view_internal s)

end MirExplorer

/-- A valid `FunctionDoc` per the data model: `entry_block` in range, block
ids equal to their list index, every edge target in range. -/
def ValidFunc (f : ExplorerFunction) : Prop :=
  f.entry_block < f.blocks.length ∧
  (∀ i < f.blocks.length, (f.blocks.get? i).map (·.id) = some i) ∧
  ∀ b ∈ f.blocks, ∀ e ∈ b.terminator.edges, e.target < f.blocks.length

instance (f : ExplorerFunction) : Decidable (ValidFunc f) := by
  unfold ValidFunc
  infer_instance

/-- A valid document: at least one function, all of them valid. -/
def ValidData (d : ExplorerData) : Prop :=
  d.functions ≠ [] ∧ ∀ f ∈ d.functions, ValidFunc f

instance (d : ExplorerData) : Decidable (ValidData d) := by
  unfold ValidData
  infer_instance

/-- The navigation transitions of the controller (the operations quantified
over in the invariant claims). -/
inductive NavOp where
  | selectFunction (i : Nat)
  | goToBlock (b : Nat)
  | goBack
  | reset
  | followEdge (i : Nat)
  | selectNextEdge
  | selectPrevEdge
deriving DecidableEq, Repr

/-- Apply one navigation transition to a controller state. -/
def applyNav (s : MirExplorer) : NavOp → Option MirExplorer
  | .selectFunction i => s.select_function i
  | .goToBlock b => s.go_to_block b
  | .goBack => some s.go_back
  | .reset => s.reset
  | .followEdge i => s.follow_edge i
  | .selectNextEdge => s.select_next_edge
  | .selectPrevEdge => s.select_prev_edge

/-- Apply a sequence of navigation transitions. -/
def applyNavSeq (s : MirExplorer) (ops : List NavOp) : Option MirExplorer :=
  ops.foldlM applyNav s

/-- A freshly-constructed controller on an 800 × 600 canvas. -/
def initExplorer : MirExplorer :=
  MirExplorer.new ⟨800, 600⟩ ("ctx")

/-- A terminator with the given outgoing edges (kinds/texts immaterial). -/
def mkTerm (es : List ExplorerEdge) : ExplorerTerminator :=
  ⟨"goto", "", "", es⟩

/-- A block with the given id and outgoing edges. -/
def mkBlock (i : Nat) (es : List ExplorerEdge) : ExplorerBlock :=
  ⟨i, [], mkTerm es, [], .Linear, ""⟩

/-- The three-block scenario function of the spec (§8): block 0 branches to
blocks 1 and 2, which have no outgoing edges. -/
def scenFn : ExplorerFunction :=
  ⟨"f", "f",
   [mkBlock 0 [⟨1, "true", .Branch, ""⟩, ⟨2, "false", .Branch, ""⟩],
    mkBlock 1 [], mkBlock 2 []],
   [], 0⟩

/-- A document holding only `scenFn`. -/
def scenDoc : ExplorerData := ⟨"crate", [scenFn]⟩

/-- A function whose `entry_block` (1) is out of range for its single
block: well-formed JSON, invalid bounds. -/
def badFn : ExplorerFunction := ⟨"g", "g", [mkBlock 0 []], [], 1⟩

/-- A document holding only `badFn`. -/
def badDoc : ExplorerData := ⟨"crate", [badFn]⟩

/-- The controller state right after successfully loading `scenDoc`
(the `getD` default is never used: the load succeeds). -/
def loadedScen : MirExplorer :=
  ((MirExplorer.load_json initExplorer (some scenDoc)).map Prod.fst).getD initExplorer

/-- A three-block function with a cycle `0 → 1 → 0` and an unreachable
block 2 (used as the C5 witness input). -/
def cycFn : ExplorerFunction :=
  ⟨"c", "c",
   [mkBlock 0 [⟨1, "", .Normal, ""⟩], mkBlock 1 [⟨0, "", .Normal, ""⟩], mkBlock 2 []],
   [], 0⟩

/-- Node slot `i` holds a node whose `id` is `i`. -/
def GoodAt (nodes : List LayoutNode) (i : Nat) : Prop :=
  ∃ node, nodes.get? i = some node ∧ node.id = i

/-- The navigation invariant (C8): the document is loaded, the function
index and current block are in range, every path entry is in range, and the
selected edge index is valid for the current block (strictly below the edge
count, or 0 when there are no outgoing edges). -/
def NavInv (d : ExplorerData) (s : MirExplorer) : Prop :=
  s.data = some d ∧
  ∃ func block,
    d.functions.get? s.current_fn_index = some func ∧
    func.blocks.get? s.current_block = some block ∧
    (∀ b ∈ s.path, b < func.blocks.length) ∧
    (s.selected_edge < block.terminator.edges.length ∨
      (block.terminator.edges.length = 0 ∧ s.selected_edge = 0))

/-- Paths of length `k` from `entry` in the successor graph. -/
inductive ReachIn (succs : List (Nat × List Nat)) (entry : Nat) : Nat → Nat → Prop where
  | refl : ReachIn succs entry 0 entry
  | step {k p s} : ReachIn succs entry k p → s ∈ succLookup succs p →
      ReachIn succs entry (k + 1) s

/-- A block is reachable from the entry. -/
def Reachable (succs : List (Nat × List Nat)) (entry m : Nat) : Prop :=
  ∃ k, ReachIn succs entry k m

/-- `k` is the BFS distance of `m` from the entry: the length of a shortest
path. -/
def IsBfsDist (succs : List (Nat × List Nat)) (entry m k : Nat) : Prop :=
  ReachIn succs entry k m ∧ ∀ j < k, ¬ ReachIn succs entry j m

/-- The sublist of `succs` the inner BFS loop freshly visits (first
occurrences of elements not yet visited), in order. -/
def freshList (visited : Finset Nat) : List Nat → List Nat
  | [] => []
  | s :: rest =>
    if s ∈ visited then freshList visited rest
    else s :: freshList (insert s visited) rest

/-- The BFS loop invariant for `compute_layers`: every recorded or queued
pair carries the true BFS distance, queue layers are non-decreasing and
spread by at most one, the visited set is exactly the recorded and queued
keys (all distinct), successors of recorded nodes are visited, the entry is
visited, and any unvisited reachable node is strictly farther than the
front of the queue. -/
structure BfsInv (succs : List (Nat × List Nat)) (entry : Nat)
    (lm : List (Nat × Nat)) (visited : Finset Nat)
    (queue : List (Nat × Nat)) : Prop where
  lm_dist : ∀ p ∈ lm, IsBfsDist succs entry p.1 p.2
  q_dist : ∀ p ∈ queue, IsBfsDist succs entry p.1 p.2
  q_sorted : List.Sorted (· ≤ ·) (queue.map (·.2))
  q_spread : ∀ p ∈ queue, ∀ q ∈ queue, p.2 ≤ q.2 + 1
  visited_eq : visited = (lm.map (·.1)).toFinset ∪ (queue.map (·.1)).toFinset
  keys_nodup : (lm.map (·.1) ++ queue.map (·.1)).Nodup
  popped_closed : ∀ p ∈ lm, ∀ s ∈ succLookup succs p.1, s ∈ visited
  entry_visited : entry ∈ visited
  unvisited_far : ∀ m dm, IsBfsDist succs entry m dm → m ∉ visited →
      ∀ hd, queue.head? = some hd → hd.2 < dm

lemma bfsPush_measure (univ : Finset Nat) (layer : Nat) :
    ∀ (succs : List Nat) (vq : Finset Nat × List (Nat × Nat)),
      (∀ s ∈ succs, s ∈ univ) →
      (univ \ (succs.foldl (bfsPush layer) vq).1).card
          + (succs.foldl (bfsPush layer) vq).2.length
        ≤ (univ \ vq.1).card + vq.2.length := by
  intro succs
  induction succs with
  | nil => intro vq _; simp
  | cons s rest ih =>
    intro vq hsub
    have hstep : (univ \ (bfsPush layer vq s).1).card + (bfsPush layer vq s).2.length
        ≤ (univ \ vq.1).card + vq.2.length := by
      by_cases hmem : s ∈ vq.1
      · simp [bfsPush, hmem]
      · have hs : s ∈ univ := hsub s (by simp)
        have hsd : s ∈ univ \ vq.1 := Finset.mem_sdiff.mpr ⟨hs, hmem⟩
        have hcard : (univ \ insert s vq.1).card = (univ \ vq.1).card - 1 := by
          rw [Finset.sdiff_insert, Finset.card_erase_of_mem hsd]
        have hpos : 0 < (univ \ vq.1).card := Finset.card_pos.mpr ⟨s, hsd⟩
        simp only [bfsPush, if_neg hmem, List.length_append, List.length_cons,
          List.length_nil, hcard]
        omega
    rw [List.foldl_cons]
    exact le_trans (ih _ (fun t ht => hsub t (by simp [ht]))) hstep

lemma lookup_mem {α : Type} {l : List (Nat × α)} {a : Nat} {b : α}
    (h : l.lookup a = some b) : (a, b) ∈ l := by
  induction l with
  | nil => simp [List.lookup] at h
  | cons p rest ih =>
    rw [List.lookup] at h
    by_cases hk : a = p.1
    · subst hk
      simp only [beq_self_eq_true] at h
      injection h with h2
      rw [← h2]
      exact List.mem_cons_self _ _
    · have hbeq : (a == p.1) = false := beq_eq_false_iff_ne.mpr hk
      rw [hbeq] at h
      exact List.mem_cons_of_mem _ (ih h)

lemma succLookup_subset_allTargets (successors : List (Nat × List Nat)) (node : Nat) :
    ∀ s ∈ succLookup successors node, s ∈ allTargets successors := by
  intro s hs
  unfold succLookup at hs
  cases hlk : successors.lookup node with
  | none => rw [hlk] at hs; simp at hs
  | some l =>
    rw [hlk] at hs
    simp only [Option.getD_some] at hs
    have hmem : (node, l) ∈ successors := lookup_mem hlk
    unfold allTargets
    rw [List.mem_flatten]
    exact ⟨l, List.mem_map.mpr ⟨(node, l), hmem, rfl⟩, hs⟩

/-- One BFS iteration strictly decreases `bfsMeasure`. -/
lemma bfsMeasure_step (successors : List (Nat × List Nat)) (visited : Finset Nat)
    (node layer : Nat) (rest : List (Nat × Nat)) :
    bfsMeasure successors
        ((succLookup successors node).foldl (bfsPush layer) (visited, rest)).1
        ((succLookup successors node).foldl (bfsPush layer) (visited, rest)).2
      < bfsMeasure successors visited ((node, layer) :: rest) := by
  have hsub : ∀ s ∈ succLookup successors node, s ∈ (allTargets successors).toFinset := by
    intro s hs
    exact List.mem_toFinset.mpr (succLookup_subset_allTargets successors node s hs)
  have h := bfsPush_measure ((allTargets successors).toFinset) layer
      (succLookup successors node) (visited, rest) hsub
  dsimp only at h
  unfold bfsMeasure
  simp only [List.length_cons]
  omega

/-- Any two sufficient fuels give the same BFS result. -/
lemma bfsLoopFuel_sufficient (successors : List (Nat × List Nat)) :
    ∀ (fuel fuel' : Nat) (layerMap : List (Nat × Nat)) (visited : Finset Nat)
      (queue : List (Nat × Nat)),
      bfsMeasure successors visited queue ≤ fuel →
      bfsMeasure successors visited queue ≤ fuel' →
      bfsLoopFuel successors fuel layerMap visited queue
        = bfsLoopFuel successors fuel' layerMap visited queue := by
  intro fuel
  induction fuel with
  | zero =>
    intro fuel' layerMap visited queue hf _
    cases queue with
    | nil => cases fuel' <;> rfl
    | cons p rest =>
      exfalso
      unfold bfsMeasure at hf
      simp only [List.length_cons] at hf
      omega
  | succ fuel ih =>
    intro fuel' layerMap visited queue hf hf'
    cases queue with
    | nil => cases fuel' <;> rfl
    | cons p rest =>
      obtain ⟨node, layer⟩ := p
      cases fuel' with
      | zero =>
        exfalso
        unfold bfsMeasure at hf'
        simp only [List.length_cons] at hf'
        omega
      | succ fuel' =>
        show bfsLoopFuel successors fuel _ _ _ = bfsLoopFuel successors fuel' _ _ _
        have hstep := bfsMeasure_step successors visited node layer rest
        exact ih fuel' _ _ _ (by omega) (by omega)

namespace MirExplorer

/-- `center_on_block` only changes the viewport offset. -/
lemma center_on_block_frame (s : MirExplorer) (b : Nat) :
    (center_on_block s b).data = s.data ∧
    (center_on_block s b).current_fn_index = s.current_fn_index ∧
    (center_on_block s b).current_block = s.current_block ∧
    (center_on_block s b).selected_edge = s.selected_edge ∧
    (center_on_block s b).path = s.path ∧
    (center_on_block s b).layout = s.layout ∧
    (center_on_block s b).scale = s.scale := by
  unfold center_on_block
  cases hl : s.layout with
  | none => exact ⟨rfl, rfl, rfl, rfl, rfl, hl, rfl⟩
  | some layout =>
    dsimp only
    cases hn : layout.nodes.get? b with
    | none => exact ⟨rfl, rfl, rfl, rfl, rfl, hl, rfl⟩
    | some node => exact ⟨rfl, rfl, rfl, rfl, rfl, rfl, rfl⟩

/-- `fit_to_view_internal` only changes the viewport scale and offset. -/
lemma fit_to_view_internal_frame (s : MirExplorer) :
    (fit_to_view_internal s).data = s.data ∧
    (fit_to_view_internal s).current_fn_index = s.current_fn_index ∧
    (fit_to_view_internal s).current_block = s.current_block ∧
    (fit_to_view_internal s).selected_edge = s.selected_edge ∧
    (fit_to_view_internal s).path = s.path ∧
    (fit_to_view_internal s).layout = s.layout := by
  unfold fit_to_view_internal
  cases hl : s.layout with
  | none => exact ⟨rfl, rfl, rfl, rfl, rfl, hl⟩
  | some layout =>
    dsimp only
    split
    · exact ⟨rfl, rfl, rfl, rfl, rfl, rfl⟩
    · exact ⟨rfl, rfl, rfl, rfl, rfl, hl⟩

end MirExplorer

/-- C10: viewport-only events do not touch navigation or document state:
`handle_wheel` leaves the loaded document, function index, current block,
selected edge and path unchanged, and `handle_drag` additionally leaves the
scale unchanged and shifts the offset by exactly `(dx, dy)`. -/
theorem c10_viewport_frame (s : MirExplorer) (wheel_dy wheel_x wheel_y dx dy : ℚ) :
    ((s.handle_wheel wheel_dy wheel_x wheel_y).data = s.data ∧
     (s.handle_wheel wheel_dy wheel_x wheel_y).current_fn_index = s.current_fn_index ∧
     (s.handle_wheel wheel_dy wheel_x wheel_y).current_block = s.current_block ∧
     (s.handle_wheel wheel_dy wheel_x wheel_y).selected_edge = s.selected_edge ∧
     (s.handle_wheel wheel_dy wheel_x wheel_y).path = s.path) ∧
    ((s.handle_drag dx dy).data = s.data ∧
     (s.handle_drag dx dy).current_fn_index = s.current_fn_index ∧
     (s.handle_drag dx dy).current_block = s.current_block ∧
     (s.handle_drag dx dy).selected_edge = s.selected_edge ∧
     (s.handle_drag dx dy).path = s.path ∧
     (s.handle_drag dx dy).scale = s.scale ∧
     (s.handle_drag dx dy).offset = (s.offset.1 + dx, s.offset.2 + dy)) :=
  ⟨⟨rfl, rfl, rfl, rfl, rfl⟩, ⟨rfl, rfl, rfl, rfl, rfl, rfl, rfl⟩⟩

/-- C7: zoom keeps the pivot fixed: for positive scale, after `handle_wheel`
the scale is `clamp(scale × 1.1 or × 0.9, 0.2, 3.0)` and any graph point
that mapped to the pointer position under `screen = graph × scale + offset`
still maps there. -/
theorem c7_zoom_pivot_fixed (s : MirExplorer) (delta_y px py gx gy : ℚ)
    (hscale : 0 < s.scale)
    (hgx : gx * s.scale + s.offset.1 = px)
    (hgy : gy * s.scale + s.offset.2 = py) :
    (s.handle_wheel delta_y px py).scale =
      MirExplorer.clampQ (s.scale * (if 0 < delta_y then 9/10 else 11/10)) (1/5) 3 ∧
    gx * (s.handle_wheel delta_y px py).scale + (s.handle_wheel delta_y px py).offset.1 = px ∧
    gy * (s.handle_wheel delta_y px py).scale + (s.handle_wheel delta_y px py).offset.2 = py := by
  have hsc : s.scale ≠ 0 := ne_of_gt hscale
  have h1 : px - s.offset.1 = gx * s.scale := by linarith [hgx]
  have h2 : py - s.offset.2 = gy * s.scale := by linarith [hgy]
  unfold MirExplorer.handle_wheel MirExplorer.render
  refine ⟨rfl, ?_, ?_⟩
  · show gx * MirExplorer.clampQ (s.scale * _) _ _ +
      (px - (px - s.offset.1) * (MirExplorer.clampQ (s.scale * _) _ _ / s.scale)) = px
    rw [h1]
    field_simp
    ring
  · show gy * MirExplorer.clampQ (s.scale * _) _ _ +
      (py - (py - s.offset.2) * (MirExplorer.clampQ (s.scale * _) _ _ / s.scale)) = py
    rw [h2]
    field_simp
    ring

/-- C7 witness: a concrete state and pivot satisfying the hypotheses. -/
theorem c7_zoom_pivot_fixed_witness :
    (0 : ℚ) < initExplorer.scale ∧
    ((10 : ℚ) * initExplorer.scale + initExplorer.offset.1 = 10 ∧
     (20 : ℚ) * initExplorer.scale + initExplorer.offset.2 = 20) ∧
    ((initExplorer.handle_wheel 1 10 20).scale =
       MirExplorer.clampQ (initExplorer.scale * (if (0:ℚ) < 1 then 9/10 else 11/10)) (1/5) 3 ∧
     (10 : ℚ) * (initExplorer.handle_wheel 1 10 20).scale +
       (initExplorer.handle_wheel 1 10 20).offset.1 = 10 ∧
     (20 : ℚ) * (initExplorer.handle_wheel 1 10 20).scale +
       (initExplorer.handle_wheel 1 10 20).offset.2 = 20) := by
  refine ⟨by norm_num [initExplorer, MirExplorer.new], ⟨?_, ?_⟩, ?_⟩
  · norm_num [initExplorer, MirExplorer.new]
  · norm_num [initExplorer, MirExplorer.new]
  · exact c7_zoom_pivot_fixed initExplorer 1 10 20 10 20
      (by norm_num [initExplorer, MirExplorer.new])
      (by norm_num [initExplorer, MirExplorer.new])
      (by norm_num [initExplorer, MirExplorer.new])

/-- C3: failed loads are atomic: on malformed input (no parse) or a document
with zero functions, `load_json` reports a descriptive error and returns the
entire prior state unchanged. -/
theorem c3_failed_load_atomic (s : MirExplorer) (parsed : Option ExplorerData)
    (hbad : parsed = none ∨ ∃ d, parsed = some d ∧ d.functions = []) :
    ∃ msg, MirExplorer.load_json s parsed = some (s, some msg) := by
  rcases hbad with h | ⟨d, hd, hempty⟩
  · subst h
    exact ⟨_, rfl⟩
  · subst hd
    refine ⟨"No functions in data", ?_⟩
    simp [MirExplorer.load_json, hempty]

/-- C3 witness: both failure modes at concrete inputs. -/
theorem c3_failed_load_atomic_witness :
    (((none : Option ExplorerData) = none ∨
        ∃ d, (none : Option ExplorerData) = some d ∧ d.functions = []) ∧
      ∃ msg, MirExplorer.load_json initExplorer none = some (initExplorer, some msg)) := by
  refine ⟨Or.inl rfl, c3_failed_load_atomic initExplorer none (Or.inl rfl)⟩

namespace MirExplorer

/-- Characterization of a recorded in-range `go_to_block` to a different
block: the old current block is pushed, the selection reset, nothing else
(beyond the viewport offset) changes. -/
lemma go_to_block_spec (s : MirExplorer) (d : ExplorerData) (func : ExplorerFunction)
    (X : Nat) (hdata : s.data = some d)
    (hfn : d.functions.get? s.current_fn_index = some func)
    (hX : X < func.blocks.length)
    (hne : s.current_block ≠ X) :
    ∃ s1, go_to_block s X = some s1 ∧
      s1.current_block = X ∧ s1.selected_edge = 0 ∧
      s1.path = s.path ++ [s.current_block] ∧
      s1.data = s.data ∧ s1.current_fn_index = s.current_fn_index ∧
      s1.layout = s.layout ∧ s1.scale = s.scale := by
  obtain ⟨dta, fni, cur, sel, pth, lay, ren, cid, sc, off⟩ := s
  simp only at hdata hfn hne ⊢
  subst hdata
  unfold go_to_block go_to_block_internal
  dsimp only
  rw [hfn]
  dsimp only
  rw [if_neg (not_le.mpr hX), if_pos ⟨rfl, hne⟩]
  refine ⟨_, rfl, ?_⟩
  obtain ⟨h1, h2, h3, h4, h5, h6, h7⟩ := center_on_block_frame
    { data := some d, current_fn_index := fni, current_block := X, selected_edge := 0,
      path := pth ++ [cur], layout := lay, renderer := ren, context_id := cid,
      scale := sc, offset := off } X
  exact ⟨h3, h4, h5, h1, h2, h6, h7⟩

/-- Characterization of `go_back` on a non-empty path. -/
lemma go_back_spec (s1 : MirExplorer) (l : List Nat) (prev : Nat)
    (hpath : s1.path = l ++ [prev]) :
    (go_back s1).current_block = prev ∧ (go_back s1).path = l ∧
    (go_back s1).selected_edge = 0 ∧ (go_back s1).data = s1.data ∧
    (go_back s1).current_fn_index = s1.current_fn_index ∧
    (go_back s1).layout = s1.layout ∧ (go_back s1).scale = s1.scale := by
  unfold go_back
  rw [hpath, List.getLast?_concat]
  dsimp only [render]
  rw [List.dropLast_concat]
  have hframe := center_on_block_frame
    { s1 with path := l, current_block := prev, selected_edge := 0 } prev
  obtain ⟨h1, h2, h3, h4, h5, h6, h7⟩ := hframe
  exact ⟨h3, h5, h4, h1, h2, h6, h7⟩

/-- `go_back` on an empty path is exactly the identity. -/
lemma go_back_empty (s : MirExplorer) (h : s.path = []) : go_back s = s := by
  unfold go_back
  rw [h]
  rfl

end MirExplorer

/-- C9: `go_back` undoes `go_to_block`: from a loaded state with current
block `C`, going to an in-range `X ≠ C` and then back restores current
block `C` and the prior path; and on an empty path `go_back` is a no-op
(the state is unchanged), hence so is any repetition of it. -/
theorem c9_go_back_undoes (s : MirExplorer) (d : ExplorerData)
    (func : ExplorerFunction) (X : Nat)
    (hdata : s.data = some d)
    (hfn : d.functions.get? s.current_fn_index = some func)
    (hX : X < func.blocks.length)
    (hne : X ≠ s.current_block) :
    (∃ s1, MirExplorer.go_to_block s X = some s1 ∧
       (MirExplorer.go_back s1).current_block = s.current_block ∧
       (MirExplorer.go_back s1).path = s.path) ∧
    (s.path = [] → MirExplorer.go_back s = s) := by
  constructor
  · obtain ⟨s1, hgo, hblk, hsel, hpath, _, _, _, _⟩ :=
      MirExplorer.go_to_block_spec s d func X hdata hfn hX (Ne.symm hne)
    obtain ⟨hb, hp, _, _, _, _, _⟩ := MirExplorer.go_back_spec s1 s.path s.current_block hpath
    exact ⟨s1, hgo, hb, hp⟩
  · exact MirExplorer.go_back_empty s

/-- C9 witness: the spec scenario document, from the loaded state. -/
theorem c9_go_back_undoes_witness :
    loadedScen.data = some scenDoc ∧
    scenDoc.functions.get? loadedScen.current_fn_index = some scenFn ∧
    2 < scenFn.blocks.length ∧ (2 : Nat) ≠ loadedScen.current_block ∧
    ((∃ s1, MirExplorer.go_to_block loadedScen 2 = some s1 ∧
       (MirExplorer.go_back s1).current_block = loadedScen.current_block ∧
       (MirExplorer.go_back s1).path = loadedScen.path) ∧
     (loadedScen.path = [] → MirExplorer.go_back loadedScen = loadedScen)) := by
  refine ⟨by decide, by decide, by decide, by decide, ?_⟩
  exact c9_go_back_undoes loadedScen scenDoc scenFn 2 (by decide) (by decide)
    (by decide) (by decide)

/-- Generic invariant-preservation for `foldlM` over `Option`: if every step
succeeds and preserves `P`, the whole fold succeeds and preserves `P`. -/
lemma foldlM_some_invariant {α β : Type} (f : β → α → Option β) (P : β → Prop)
    (l : List α) (hf : ∀ b, ∀ a ∈ l, P b → ∃ b', f b a = some b' ∧ P b') :
    ∀ b, P b → ∃ b', l.foldlM f b = some b' ∧ P b' := by
  induction l with
  | nil => intro b hb; exact ⟨b, rfl, hb⟩
  | cons a rest ih =>
    intro b hb
    obtain ⟨b1, hstep, hb1⟩ := hf b a (by simp) hb
    obtain ⟨b', hrest, hb'⟩ := ih (fun b a ha hb => hf b a (by simp [ha]) hb) b1 hb1
    refine ⟨b', ?_, hb'⟩
    rw [List.foldlM_cons, hstep]
    exact hrest

/-- `position_nodes` always succeeds (the node array always has exactly
`func.blocks.len()` entries, so the guarded `func.blocks[node_id]` indexing
cannot be out of range), and the result keeps that length. -/
lemma position_nodes_some (func : ExplorerFunction) (layers : List (List Nat)) :
    ∃ nodes, position_nodes func layers = some nodes ∧
      nodes.length = func.blocks.length := by
  unfold position_nodes
  refine foldlM_some_invariant _
    (fun (nodes : List LayoutNode) => nodes.length = func.blocks.length) _
    ?_ _ (List.length_replicate _ _)
  intro nodes li _ hlen
  unfold positionLayer
  refine foldlM_some_invariant _
    (fun (nodes : List LayoutNode) => nodes.length = func.blocks.length) _
    ?_ _ hlen
  intro nodes pi _ hlen
  unfold positionNodeStep
  by_cases hid : pi.2 < nodes.length
  · rw [if_pos hid]
    have hblk : pi.2 < func.blocks.length := hlen ▸ hid
    cases hget : func.blocks.get? pi.2 with
    | none =>
      exfalso
      rw [List.get?_eq_none] at hget
      omega
    | some blk => exact ⟨_, rfl, by simp [hlen]⟩
  · rw [if_neg hid]
    exact ⟨nodes, rfl, hlen⟩

/-- `route_edges` succeeds whenever every block id and every edge target is
in range of the node array. -/
lemma route_edges_some (func : ExplorerFunction) (nodes : List LayoutNode)
    (hids : ∀ b ∈ func.blocks, b.id < nodes.length)
    (htargets : ∀ b ∈ func.blocks, ∀ e ∈ b.terminator.edges, e.target < nodes.length) :
    ∃ edges, route_edges func nodes = some edges := by
  unfold route_edges
  refine (foldlM_some_invariant _ (fun _ => True) _ ?_ [] trivial).imp
    (fun edges h => h.1)
  intro edges block hblock _
  cases hget : nodes.get? block.id with
  | none =>
    exfalso
    rw [List.get?_eq_none] at hget
    exact absurd (hids block hblock) (by omega)
  | some from_node =>
    dsimp only
    refine (foldlM_some_invariant _ (fun _ => True) _ ?_ edges trivial).imp
      (fun edges h => ⟨h.1, trivial⟩)
    intro edges e he _
    cases hget2 : nodes.get? e.target with
    | none =>
      exfalso
      rw [List.get?_eq_none] at hget2
      exact absurd (htargets block hblock e he) (by omega)
    | some to_node => exact ⟨_, rfl, trivial⟩

/-- `from_function` succeeds whenever every block id and edge target is in
range (no validity of `entry_block` is needed). -/
lemma from_function_some (f : ExplorerFunction)
    (hids : ∀ b ∈ f.blocks, b.id < f.blocks.length)
    (htargets : ∀ b ∈ f.blocks, ∀ e ∈ b.terminator.edges, e.target < f.blocks.length) :
    ∃ layout, from_function f = some layout ∧
      layout.nodes.length = f.blocks.length := by
  unfold from_function fromFunctionOrder
  by_cases hempty : f.blocks.length = 0
  · rw [if_pos hempty]
    exact ⟨_, rfl, by simp [hempty]⟩
  · rw [if_neg hempty]
    dsimp only
    obtain ⟨nodes, hpos, hlen⟩ := position_nodes_some f
      (computeLayersOrder (finalLayerMap f.entry_block f.blocks.length (buildSuccessors f)))
    rw [hpos]
    dsimp only
    obtain ⟨edges, hroute⟩ := route_edges_some f nodes
      (fun b hb => hlen ▸ hids b hb)
      (fun b hb e he => hlen ▸ htargets b hb e he)
    rw [hroute]
    exact ⟨_, rfl, hlen⟩

namespace MirExplorer

/-- Characterization of an in-range `select_function` whose layout
computation succeeds. -/
lemma select_function_spec (s : MirExplorer) (d : ExplorerData) (index : Nat)
    (func : ExplorerFunction) (layout : GraphLayout)
    (hdata : s.data = some d)
    (hfn : d.functions.get? index = some func)
    (hlay : from_function func = some layout) :
    ∃ s1, select_function s index = some s1 ∧
      s1.data = some d ∧ s1.current_fn_index = index ∧ s1.path = [] ∧
      s1.selected_edge = 0 ∧ s1.layout = some layout ∧
      s1.current_block = func.entry_block := by
  have hlt : index < d.functions.length := by
    by_contra hge
    rw [List.get?_eq_none.mpr (by omega)] at hfn
    exact Option.noConfusion hfn
  obtain ⟨dta, fni, cur, sel, pth, lay, ren, cid, sc, off⟩ := s
  simp only at hdata ⊢
  subst hdata
  unfold select_function
  dsimp only
  rw [if_neg (not_le.mpr hlt), hfn]
  dsimp only
  rw [hlay]
  dsimp only [render]
  refine ⟨_, rfl, ?_⟩
  obtain ⟨h1, h2, h3, h4, h5, h6⟩ := fit_to_view_internal_frame
    { data := some d, current_fn_index := index, current_block := func.entry_block,
      selected_edge := 0, path := [], layout := some layout, renderer := ren,
      context_id := cid, scale := sc, offset := off }
  exact ⟨h1, h2, h5, h4, h6, h3⟩

end MirExplorer

/-- C1 counterexample: `badDoc` is well-formed JSON whose single function
has an out-of-range `entry_block` (1 with a single block), yet `load_json`
succeeds (no error) and stores the document — bounds are not validated at
load. -/
theorem c1_counterexample :
    badFn.entry_block = 1 ∧ badFn.blocks.length = 1 ∧
    (MirExplorer.load_json initExplorer (some badDoc)).map (fun p => (p.1.data, p.2)) =
      some (some badDoc, none) :=
  ⟨rfl, rfl, by decide⟩

/-- C1 (amended): `load_json` validates only that the JSON parses and that
the function list is non-empty; bounds are never checked.  Any parsed
document whose first function's block ids and edge targets are in range is
accepted and stored, regardless of its `entry_block` (an out-of-range block
id or edge target in the first function instead panics during layout rather
than producing a parse-class error). -/
theorem c1_amended (s : MirExplorer) (d : ExplorerData) (f0 : ExplorerFunction)
    (hf0 : d.functions.get? 0 = some f0)
    (hids : ∀ b ∈ f0.blocks, b.id < f0.blocks.length)
    (htargets : ∀ b ∈ f0.blocks, ∀ e ∈ b.terminator.edges, e.target < f0.blocks.length) :
    ∃ s1, MirExplorer.load_json s (some d) = some (s1, none) ∧ s1.data = some d := by
  have hne : ¬ d.functions.isEmpty := by
    cases hl : d.functions with
    | nil => rw [hl] at hf0; exact Option.noConfusion hf0
    | cons a l => simp
  obtain ⟨layout, hlay, _⟩ := from_function_some f0 hids htargets
  obtain ⟨s1, hsel, hdata, _⟩ := MirExplorer.select_function_spec
    { s with data := some d } d 0 f0 layout rfl hf0 hlay
  refine ⟨s1, ?_, hdata⟩
  unfold MirExplorer.load_json
  dsimp only
  rw [if_neg hne, hsel]

/-- C1 amended-claim witness: `badDoc` satisfies the hypotheses (ids and
targets in range, `entry_block` not) and is accepted and stored. -/
theorem c1_amended_witness :
    (badDoc.functions.get? 0 = some badFn ∧
     (∀ b ∈ badFn.blocks, b.id < badFn.blocks.length) ∧
     (∀ b ∈ badFn.blocks, ∀ e ∈ b.terminator.edges, e.target < badFn.blocks.length)) ∧
    ∃ s1, MirExplorer.load_json initExplorer (some badDoc) = some (s1, none) ∧
      s1.data = some badDoc := by
  refine ⟨⟨by decide, by decide, by decide⟩, ?_⟩
  exact c1_amended initExplorer badDoc badFn (by decide) (by decide) (by decide)

/-- C2: the controller can abort.  `badDoc` (out-of-range `entry_block`) is
accepted by `load_json` with no error, after which `follow_edge` evaluates
`func.blocks[self.current_block]` with `current_block = 1` out of range and
panics — a process abort, not a returned failure. -/
theorem c2_follow_edge_panics :
    (MirExplorer.load_json initExplorer (some badDoc)).map Prod.snd = some none ∧
    ((MirExplorer.load_json initExplorer (some badDoc)).map Prod.fst).bind
        (fun s => MirExplorer.follow_edge s 0) = none :=
  ⟨by decide, by decide⟩

lemma foldl_max_init_le : ∀ (l : List Nat) (a : Nat), a ≤ l.foldl Nat.max a := by
  intro l
  induction l with
  | nil => intro a; exact le_refl a
  | cons x r ih =>
    intro a
    exact le_trans (Nat.le_max_left a x) (ih (Nat.max a x))

lemma mem_le_foldl_max : ∀ (l : List Nat) (a x : Nat), x ∈ l → x ≤ l.foldl Nat.max a := by
  intro l
  induction l with
  | nil => intro a x hx; simp at hx
  | cons y r ih =>
    intro a x hx
    rw [List.foldl_cons]
    rcases List.mem_cons.mp hx with h | h
    · subst h
      exact le_trans (Nat.le_max_right a x) (foldl_max_init_le r _)
    · exact ih _ x h

/-- Every layer value is at most `valuesMax`. -/
lemma le_valuesMax (m : List (Nat × Nat)) (p : Nat × Nat) (hp : p ∈ m) :
    p.2 ≤ valuesMax m :=
  mem_le_foldl_max _ 0 _ (List.mem_map.mpr ⟨p, hp, rfl⟩)

/-- `values().max()` does not depend on the iteration order. -/
lemma valuesMax_perm {m1 m2 : List (Nat × Nat)} (h : m1.Perm m2) :
    valuesMax m1 = valuesMax m2 := by
  unfold valuesMax
  haveI : RightCommutative Nat.max :=
    ⟨fun b a1 a2 => by
      simp only [Nat.max_def]
      split_ifs <;> omega⟩
  exact List.Perm.foldl_eq (h.map _) 0

/-- Pointwise description of the bucket-filling loop of `groupLayers`:
bucket `i` collects, in iteration order, the nodes whose layer is `i`. -/
lemma buckets_foldl_get (entries : List (Nat × Nat)) :
    ∀ (acc : List (List Nat)) (i : Nat), (∀ p ∈ entries, p.2 < acc.length) →
      (entries.foldl (fun ls p => ls.set p.2 ((ls.getD p.2 []) ++ [p.1])) acc).get? i
        = (acc.get? i).map
            (fun g => g ++ (entries.filter (fun p => p.2 == i)).map (·.1)) := by
  induction entries with
  | nil =>
    intro acc i _
    simp
  | cons q rest ih =>
    intro acc i hlt
    rw [List.foldl_cons]
    have hq : q.2 < acc.length := hlt q (by simp)
    have hlen : (acc.set q.2 ((acc.getD q.2 []) ++ [q.1])).length = acc.length :=
      List.length_set acc _ _
    rw [ih _ i (fun p hp => hlen ▸ hlt p (by simp [hp]))]
    by_cases hqi : q.2 = i
    · subst hqi
      obtain ⟨g, hg⟩ : ∃ g, acc.get? q.2 = some g := by
        cases hga : acc.get? q.2 with
        | none => rw [List.get?_eq_none] at hga; omega
        | some g => exact ⟨g, rfl⟩
      rw [List.get?_set_eq_of_lt _ hq, hg, List.getD_eq_getD_get?, hg]
      simp only [Option.getD_some, Option.map_some']
      rw [List.filter_cons_of_pos (by simp), List.map_cons, List.append_assoc]
      rfl
    · rw [List.get?_set_ne _ _ (by omega)]
      rw [List.filter_cons_of_neg (by simpa using hqi)]

/-- Sorting makes each bucket independent of the iteration order. -/
lemma groupLayers_perm {e1 e2 : List (Nat × Nat)} (n : Nat) (h : e1.Perm e2)
    (hlt : ∀ p ∈ e1, p.2 < n) :
    groupLayers e1 n = groupLayers e2 n := by
  unfold groupLayers
  dsimp only
  apply List.ext_get?
  intro i
  rw [List.get?_map, List.get?_map]
  rw [buckets_foldl_get e1 _ i (by simpa using hlt),
      buckets_foldl_get e2 _ i (by simpa using fun p hp => hlt p (h.symm.subset hp))]
  cases hrep : (List.replicate n ([] : List Nat)).get? i with
  | none => rfl
  | some g =>
    have hgnil : g = [] := by
      have := List.get?_mem hrep
      exact (List.eq_of_mem_replicate this)
    subst hgnil
    simp only [Option.map_some', List.nil_append]
    congr 1
    unfold sortLayer
    refine List.eq_of_perm_of_sorted ?_
      (List.sorted_insertionSort _ _) (List.sorted_insertionSort _ _)
    exact (List.perm_insertionSort _ _).trans
      (((h.filter _).map _).trans (List.perm_insertionSort _ _).symm)

/-- `compute_layers` is independent of the layer-map iteration order. -/
lemma computeLayersOrder_perm {e1 e2 : List (Nat × Nat)} (h : e1.Perm e2) :
    computeLayersOrder e1 = computeLayersOrder e2 := by
  unfold computeLayersOrder
  rw [valuesMax_perm h]
  exact groupLayers_perm _ h
    (fun p hp => Nat.lt_succ_of_le ((valuesMax_perm h) ▸ le_valuesMax e1 p hp))

/-- C4: layout is deterministic.  The only unspecified behaviour in
`from_function` is the `HashMap` iteration order of the layer map in
`compute_layers`; for any two runs (any two permutations `e1`, `e2` of the
layer-map entries) the resulting layouts — node positions, edge control
points and bounding box — are identical. -/
theorem c4_layout_deterministic (f : ExplorerFunction) (e1 e2 : List (Nat × Nat))
    (h1 : e1.Perm (finalLayerMap f.entry_block f.blocks.length (buildSuccessors f)))
    (h2 : e2.Perm (finalLayerMap f.entry_block f.blocks.length (buildSuccessors f))) :
    fromFunctionOrder f e1 = fromFunctionOrder f e2 := by
  unfold fromFunctionOrder
  rw [computeLayersOrder_perm (h1.trans h2.symm)]

/-- C4 witness: the scenario function, canonical order against a transposed
order of the layer-map entries. -/
theorem c4_layout_deterministic_witness :
    ([(0, 0), (2, 1), (1, 1)] : List (Nat × Nat)).Perm
        (finalLayerMap scenFn.entry_block scenFn.blocks.length (buildSuccessors scenFn)) ∧
    (finalLayerMap scenFn.entry_block scenFn.blocks.length (buildSuccessors scenFn)).Perm
        (finalLayerMap scenFn.entry_block scenFn.blocks.length (buildSuccessors scenFn)) ∧
    fromFunctionOrder scenFn [(0, 0), (2, 1), (1, 1)]
      = fromFunctionOrder scenFn
          (finalLayerMap scenFn.entry_block scenFn.blocks.length (buildSuccessors scenFn)) := by
  refine ⟨by decide, by decide, ?_⟩
  exact c4_layout_deterministic scenFn _ _ (by decide) (by decide)

lemma bounds_fold_spec (nodes : List LayoutNode) :
    ∀ b : WithTop ℚ × WithTop ℚ × WithBot ℚ × WithBot ℚ,
      (nodes.foldl boundsStep b).1 ≤ b.1 ∧
      (nodes.foldl boundsStep b).2.1 ≤ b.2.1 ∧
      b.2.2.1 ≤ (nodes.foldl boundsStep b).2.2.1 ∧
      b.2.2.2 ≤ (nodes.foldl boundsStep b).2.2.2 ∧
      ∀ nd ∈ nodes,
        (nodes.foldl boundsStep b).1 ≤ (nd.x : WithTop ℚ) ∧
        (nodes.foldl boundsStep b).2.1 ≤ (nd.y : WithTop ℚ) ∧
        ((nd.x + nd.width : ℚ) : WithBot ℚ) ≤ (nodes.foldl boundsStep b).2.2.1 ∧
        ((nd.y + nd.height : ℚ) : WithBot ℚ) ≤ (nodes.foldl boundsStep b).2.2.2 := by
  induction nodes with
  | nil =>
    intro b
    exact ⟨le_refl _, le_refl _, le_refl _, le_refl _, by simp⟩
  | cons nd rest ih =>
    intro b
    rw [List.foldl_cons]
    obtain ⟨h1, h2, h3, h4, h5⟩ := ih (boundsStep b nd)
    refine ⟨le_trans h1 (min_le_left _ _), le_trans h2 (min_le_left _ _),
      le_trans (le_max_left _ _) h3, le_trans (le_max_left _ _) h4, ?_⟩
    intro nd' hnd'
    rcases List.mem_cons.mp hnd' with h | h
    · subst h
      exact ⟨le_trans h1 (min_le_right _ _), le_trans h2 (min_le_right _ _),
        le_trans (le_max_right _ _) h3, le_trans (le_max_right _ _) h4⟩
    · exact h5 nd' h

/-- The bounding box of `compute_bounds` contains every node rectangle. -/
lemma compute_bounds_contains (nodes : List LayoutNode) :
    ∀ node ∈ nodes,
      (compute_bounds nodes).1 ≤ node.x ∧
      (compute_bounds nodes).2.1 ≤ node.y ∧
      node.x + node.width ≤ (compute_bounds nodes).2.2.1 ∧
      node.y + node.height ≤ (compute_bounds nodes).2.2.2 := by
  intro node hnode
  have hne : ¬ nodes.isEmpty := by
    cases nodes with
    | nil => simp at hnode
    | cons a l => simp
  unfold compute_bounds
  rw [if_neg hne]
  dsimp only
  obtain ⟨-, -, -, -, h5⟩ := bounds_fold_spec nodes (⊤, ⊤, ⊥, ⊥)
  obtain ⟨hx, hy, hxw, hyh⟩ := h5 node hnode
  refine ⟨?_, ?_, ?_, ?_⟩
  · rcases hfx : (nodes.foldl boundsStep (⊤, ⊤, ⊥, ⊥)).1 with _ | q
    · rw [hfx] at hx
      exact absurd hx (WithTop.not_top_le_coe _)
    · rw [hfx] at hx
      exact WithTop.coe_le_coe.mp hx
  · rcases hfy : (nodes.foldl boundsStep (⊤, ⊤, ⊥, ⊥)).2.1 with _ | q
    · rw [hfy] at hy
      exact absurd hy (WithTop.not_top_le_coe _)
    · rw [hfy] at hy
      exact WithTop.coe_le_coe.mp hy
  · rcases hfw : (nodes.foldl boundsStep (⊤, ⊤, ⊥, ⊥)).2.2.1 with _ | q
    · rw [hfw] at hxw
      exact absurd hxw (WithBot.not_coe_le_bot _)
    · rw [hfw] at hxw
      exact WithBot.coe_le_coe.mp hxw
  · rcases hfh : (nodes.foldl boundsStep (⊤, ⊤, ⊥, ⊥)).2.2.2 with _ | q
    · rw [hfh] at hyh
      exact absurd hyh (WithBot.not_coe_le_bot _)
    · rw [hfh] at hyh
      exact WithBot.coe_le_coe.mp hyh

lemma lookup_append_of_some {α : Type} {m : List (Nat × α)} {m2 : List (Nat × α)}
    {i : Nat} {l : α} (h : m.lookup i = some l) : (m ++ m2).lookup i = some l := by
  induction m with
  | nil => simp [List.lookup] at h
  | cons p rest ih =>
    rw [List.cons_append, List.lookup]
    rw [List.lookup] at h
    cases hbeq : (i == p.1) with
    | true => rw [hbeq] at h; exact h
    | false => rw [hbeq] at h; exact ih h

lemma lookup_append_of_none {α : Type} {m : List (Nat × α)} (m2 : List (Nat × α))
    {i : Nat} (h : m.lookup i = none) : (m ++ m2).lookup i = m2.lookup i := by
  induction m with
  | nil => simp
  | cons p rest ih =>
    rw [List.cons_append, List.lookup]
    rw [List.lookup] at h
    cases hbeq : (i == p.1) with
    | true => rw [hbeq] at h; exact Option.noConfusion h
    | false => rw [hbeq] at h; exact ih h

/-- After the `or_insert` pass of `compute_layers`, every id among the
processed ids has an entry in the layer map. -/
lemma orInsert_fold_lookup_isSome (v : Nat) :
    ∀ (ids : List Nat) (m : List (Nat × Nat)) (i : Nat),
      (i ∈ ids ∨ (m.lookup i).isSome) →
      ((ids.foldl (fun m id => if (m.lookup id).isSome then m else m ++ [(id, v)]) m).lookup i).isSome := by
  intro ids
  induction ids with
  | nil =>
    intro m i h
    rcases h with h | h
    · simp at h
    · exact h
  | cons id rest ih =>
    intro m i h
    rw [List.foldl_cons]
    by_cases hid : (m.lookup id).isSome
    · rw [if_pos hid]
      rcases h with h | h
      · rcases List.mem_cons.mp h with h | h
        · subst h
          exact ih m i (Or.inr hid)
        · exact ih m i (Or.inl h)
      · exact ih m i (Or.inr h)
    · rw [if_neg hid]
      rcases h with h | h
      · rcases List.mem_cons.mp h with h | h
        · subst h
          refine ih _ i (Or.inr ?_)
          rw [lookup_append_of_none _ (Option.not_isSome_iff_eq_none.mp hid)]
          simp [List.lookup]
        · exact ih _ i (Or.inl h)
      · refine ih _ i (Or.inr ?_)
        obtain ⟨l, hl⟩ := Option.isSome_iff_exists.mp h
        rw [lookup_append_of_some hl]
        rfl

/-- Every id below `block_count` has a layer in the final layer map. -/
lemma finalLayerMap_covers (entry block_count : Nat)
    (successors : List (Nat × List Nat)) :
    ∀ i < block_count, ∃ l, (finalLayerMap entry block_count successors).lookup i = some l := by
  intro i hi
  unfold finalLayerMap
  have h := orInsert_fold_lookup_isSome (valuesMax (bfsLayerMap entry successors) + 1)
    (List.range block_count) (bfsLayerMap entry successors) i
    (Or.inl (List.mem_range.mpr hi))
  exact Option.isSome_iff_exists.mp h

lemma positionNodeStep_good (func : ExplorerFunction) (sx : ℚ) (li : Nat)
    (acc : List LayoutNode) (p : Nat × Nat) (i : Nat)
    (hlen : acc.length = func.blocks.length) :
    ∃ acc', positionNodeStep func sx li acc p = some acc' ∧
      acc'.length = func.blocks.length ∧
      (GoodAt acc i → GoodAt acc' i) ∧
      (p.2 = i → i < func.blocks.length → GoodAt acc' i) := by
  unfold positionNodeStep
  by_cases hid : p.2 < acc.length
  · rw [if_pos hid]
    have hblk : p.2 < func.blocks.length := hlen ▸ hid
    obtain ⟨blk, hget⟩ : ∃ blk, func.blocks.get? p.2 = some blk := by
      cases hga : func.blocks.get? p.2 with
      | none => rw [List.get?_eq_none] at hga; omega
      | some blk => exact ⟨blk, rfl⟩
    rw [hget]
    refine ⟨_, rfl, by simp [hlen], ?_, ?_⟩
    · rintro ⟨node, hnode, hidnode⟩
      by_cases hpi : p.2 = i
      · subst hpi
        exact ⟨_, List.get?_set_eq_of_lt _ hid, rfl⟩
      · exact ⟨node, by rw [List.get?_set_ne _ _ hpi]; exact hnode, hidnode⟩
    · intro hpi _
      subst hpi
      exact ⟨_, List.get?_set_eq_of_lt _ hid, rfl⟩
  · rw [if_neg hid]
    refine ⟨acc, rfl, hlen, id, ?_⟩
    intro hpi hilt
    omega

lemma positionFold_good (func : ExplorerFunction) (sx : ℚ) (li : Nat)
    (L : List (Nat × Nat)) (i : Nat) :
    ∀ acc, acc.length = func.blocks.length →
      ∃ acc', L.foldlM (positionNodeStep func sx li) acc = some acc' ∧
        acc'.length = func.blocks.length ∧
        (GoodAt acc i → GoodAt acc' i) ∧
        ((∃ p ∈ L, p.2 = i) → i < func.blocks.length → GoodAt acc' i) := by
  induction L with
  | nil =>
    intro acc hlen
    refine ⟨acc, rfl, hlen, id, ?_⟩
    rintro ⟨p, hp, -⟩
    simp at hp
  | cons q rest ih =>
    intro acc hlen
    obtain ⟨acc1, hstep, hlen1, hpres1, hest1⟩ := positionNodeStep_good func sx li acc q i hlen
    obtain ⟨acc', hrest, hlen', hpres', hest'⟩ := ih acc1 hlen1
    refine ⟨acc', ?_, hlen', fun hg => hpres' (hpres1 hg), ?_⟩
    · rw [List.foldlM_cons, hstep]
      exact hrest
    · rintro ⟨p, hp, hpi⟩ hilt
      rcases List.mem_cons.mp hp with h | h
      · subst h
        exact hpres' (hest1 hpi hilt)
      · exact hest' ⟨p, h, hpi⟩ hilt

lemma positionLayer_good (func : ExplorerFunction) (acc : List LayoutNode)
    (li : Nat × List Nat) (i : Nat) (hlen : acc.length = func.blocks.length) :
    ∃ acc', positionLayer func acc li = some acc' ∧
      acc'.length = func.blocks.length ∧
      (GoodAt acc i → GoodAt acc' i) ∧
      (i ∈ li.2 → i < func.blocks.length → GoodAt acc' i) := by
  unfold positionLayer
  obtain ⟨acc', hfold, hlen', hpres, hest⟩ :=
    positionFold_good func _ li.1 li.2.enum i acc hlen
  refine ⟨acc', hfold, hlen', hpres, ?_⟩
  intro hmem hilt
  refine hest ?_ hilt
  obtain ⟨n, hn⟩ := List.get?_of_mem hmem
  exact ⟨(n, i), List.mk_mem_enum_iff_get?.mpr hn, rfl⟩

/-- If id `i` occurs in some layer and is in range, the positioned node
array holds a node with id `i` at index `i`. -/
lemma position_nodes_good (func : ExplorerFunction) (layers : List (List Nat))
    (i : Nat) (hmem : ∃ li ∈ layers, i ∈ li) (hilt : i < func.blocks.length) :
    ∃ nodes, position_nodes func layers = some nodes ∧
      nodes.length = func.blocks.length ∧ GoodAt nodes i := by
  unfold position_nodes
  suffices h : ∀ acc, acc.length = func.blocks.length →
      ∃ nodes, layers.enum.foldlM (positionLayer func) acc = some nodes ∧
        nodes.length = func.blocks.length ∧
        (GoodAt acc i → GoodAt nodes i) ∧
        ((∃ li ∈ layers.enum, i ∈ li.2) → GoodAt nodes i) by
    obtain ⟨nodes, hfold, hlen, -, hest⟩ :=
      h (List.replicate func.blocks.length defaultLayoutNode) (List.length_replicate _ _)
    refine ⟨nodes, hfold, hlen, ?_⟩
    obtain ⟨li, hli, hmemli⟩ := hmem
    obtain ⟨n, hn⟩ := List.get?_of_mem hli
    exact hest ⟨(n, li), List.mk_mem_enum_iff_get?.mpr hn, hmemli⟩
  induction layers.enum with
  | nil =>
    intro acc hlen
    refine ⟨acc, rfl, hlen, id, ?_⟩
    rintro ⟨li, hli, -⟩
    simp at hli
  | cons q rest ih =>
    intro acc hlen
    obtain ⟨acc1, hstep, hlen1, hpres1, hest1⟩ := positionLayer_good func acc q i hlen
    obtain ⟨nodes, hrest, hlen', hpres', hest'⟩ := ih acc1 hlen1
    refine ⟨nodes, ?_, hlen', fun hg => hpres' (hpres1 hg), ?_⟩
    · rw [List.foldlM_cons, hstep]
      exact hrest
    · rintro ⟨li, hli, hmemli⟩
      rcases List.mem_cons.mp hli with h | h
      · subst h
        exact hpres' (hest1 hmemli hilt)
      · exact hest' ⟨li, h, hmemli⟩

/-- Every entry `(i, l)` of the layer map lands in layer `l` of the grouped
(and sorted) layers. -/
lemma computeLayersOrder_mem (entries : List (Nat × Nat)) (i l : Nat)
    (hmem : (i, l) ∈ entries) :
    ∃ li ∈ computeLayersOrder entries, i ∈ li := by
  unfold computeLayersOrder groupLayers
  dsimp only
  have hl : l < valuesMax entries + 1 :=
    Nat.lt_succ_of_le (le_valuesMax entries (i, l) hmem)
  have hget := buckets_foldl_get entries
    (List.replicate (valuesMax entries + 1) []) l
    (fun p hp => by simpa using Nat.lt_succ_of_le (le_valuesMax entries p hp))
  have hrep : (List.replicate (valuesMax entries + 1) ([] : List Nat)).get? l = some [] := by
    rw [List.get?_eq_get (by simpa using hl)]
    simp
  rw [hrep] at hget
  simp only [Option.map_some', List.nil_append] at hget
  refine ⟨sortLayer ((entries.filter (fun p => p.2 == l)).map (·.1)), ?_, ?_⟩
  · have hmap : ((entries.foldl (fun ls p => ls.set p.2 ((ls.getD p.2 []) ++ [p.1]))
        (List.replicate (valuesMax entries + 1) [])).map sortLayer).get? l
        = some (sortLayer ((entries.filter (fun p => p.2 == l)).map (·.1))) := by
      rw [List.get?_map, hget]
      rfl
    exact List.get?_mem hmap
  · refine ((List.perm_insertionSort _ _).mem_iff).mpr ?_
    exact List.mem_map.mpr ⟨(i, l), List.mem_filter.mpr ⟨hmem, by simp⟩, rfl⟩

/-- In a valid function every block's id is in range. -/
lemma validFunc_id_lt (f : ExplorerFunction) (hvalid : ValidFunc f) :
    ∀ b ∈ f.blocks, b.id < f.blocks.length := by
  intro b hb
  obtain ⟨n, hn⟩ := List.get?_of_mem hb
  have hlt : n < f.blocks.length := by
    by_contra hge
    rw [List.get?_eq_none.mpr (by omega)] at hn
    exact Option.noConfusion hn
  have := hvalid.2.1 n hlt
  rw [hn] at this
  simp only [Option.map_some'] at this
  injection this with h
  omega

/-- C6: for every valid `FunctionDoc` with `N` blocks the layout holds
exactly `N` nodes, the node at index `i` has id `i`, and the bounding box
contains every node rectangle; with zero blocks the layout is empty with a
zero bounding box. -/
theorem c6_layout_nodes (f : ExplorerFunction) :
    (f.blocks.length = 0 → from_function f = some ⟨[], [], (0, 0, 0, 0)⟩) ∧
    (ValidFunc f →
      ∃ layout, from_function f = some layout ∧
        layout.nodes.length = f.blocks.length ∧
        (∀ i < f.blocks.length, ∃ node, layout.nodes.get? i = some node ∧ node.id = i) ∧
        ∀ node ∈ layout.nodes,
          layout.bounds.1 ≤ node.x ∧ layout.bounds.2.1 ≤ node.y ∧
          node.x + node.width ≤ layout.bounds.2.2.1 ∧
          node.y + node.height ≤ layout.bounds.2.2.2) := by
  constructor
  · intro h
    unfold from_function fromFunctionOrder
    rw [if_pos h]
  · intro hvalid
    have hN : ¬ f.blocks.length = 0 := by
      have := hvalid.1
      omega
    obtain ⟨nodes, hpos, hlen⟩ := position_nodes_some f
      (computeLayersOrder (finalLayerMap f.entry_block f.blocks.length (buildSuccessors f)))
    obtain ⟨edges, hroute⟩ := route_edges_some f nodes
      (fun b hb => hlen ▸ validFunc_id_lt f hvalid b hb)
      (fun b hb e he => hlen ▸ hvalid.2.2 b hb e he)
    refine ⟨⟨nodes, edges, compute_bounds nodes⟩, ?_, hlen, ?_, ?_⟩
    · unfold from_function fromFunctionOrder
      rw [if_neg hN]
      dsimp only
      rw [hpos]
      dsimp only
      rw [hroute]
    · intro i hi
      obtain ⟨l, hlook⟩ := finalLayerMap_covers f.entry_block f.blocks.length
        (buildSuccessors f) i hi
      obtain ⟨nodes', hpos', hlen', hgood⟩ := position_nodes_good f
        (computeLayersOrder (finalLayerMap f.entry_block f.blocks.length (buildSuccessors f)))
        i (computeLayersOrder_mem _ i l (lookup_mem hlook)) hi
      rw [hpos] at hpos'
      injection hpos' with hpos'
      subst hpos'
      exact hgood
    · exact compute_bounds_contains nodes

/-- C6 witness: the scenario function is valid; both conjuncts at work. -/
theorem c6_layout_nodes_witness :
    ((scenFn.blocks.length = 0 → from_function scenFn = some ⟨[], [], (0, 0, 0, 0)⟩) ∧
     (ValidFunc scenFn →
       ∃ layout, from_function scenFn = some layout ∧
         layout.nodes.length = scenFn.blocks.length ∧
         (∀ i < scenFn.blocks.length, ∃ node, layout.nodes.get? i = some node ∧ node.id = i) ∧
         ∀ node ∈ layout.nodes,
           layout.bounds.1 ≤ node.x ∧ layout.bounds.2.1 ≤ node.y ∧
           node.x + node.width ≤ layout.bounds.2.2.1 ∧
           node.y + node.height ≤ layout.bounds.2.2.2)) ∧
    ValidFunc scenFn :=
  ⟨c6_layout_nodes scenFn, by decide⟩

lemma get?_some_of_lt {α : Type} {l : List α} {i : Nat} (h : i < l.length) :
    ∃ a, l.get? i = some a := by
  cases hg : l.get? i with
  | none => rw [List.get?_eq_none] at hg; omega
  | some a => exact ⟨a, rfl⟩

lemma lt_of_get?_some {α : Type} {l : List α} {i : Nat} {a : α}
    (h : l.get? i = some a) : i < l.length := by
  by_contra hge
  rw [List.get?_eq_none.mpr (by omega)] at h
  exact Option.noConfusion h

namespace MirExplorer

/-- Full characterization of `go_to_block_internal`. -/
lemma go_to_block_internal_inv (s : MirExplorer) (d : ExplorerData)
    (func : ExplorerFunction) (b : Nat) (record : Bool)
    (hdata : s.data = some d)
    (hfn : d.functions.get? s.current_fn_index = some func) :
    ∃ s', go_to_block_internal s b record = some s' ∧
      s'.data = s.data ∧ s'.current_fn_index = s.current_fn_index ∧
      ((func.blocks.length ≤ b ∧ s' = s) ∨
       (b < func.blocks.length ∧ s'.current_block = b ∧ s'.selected_edge = 0 ∧
        (s'.path = s.path ∨ s'.path = s.path ++ [s.current_block]))) := by
  obtain ⟨dta, fni, cur, sel, pth, lay, ren, cid, sc, off⟩ := s
  simp only at hdata hfn ⊢
  subst hdata
  unfold go_to_block_internal
  dsimp only
  rw [hfn]
  dsimp only
  by_cases hb : func.blocks.length ≤ b
  · rw [if_pos hb]
    exact ⟨_, rfl, rfl, rfl, Or.inl ⟨hb, rfl⟩⟩
  · rw [if_neg hb]
    by_cases hrec : record = true ∧ cur ≠ b
    · rw [if_pos hrec]
      dsimp only [render]
      obtain ⟨h1, h2, h3, h4, h5, h6, h7⟩ := center_on_block_frame
        { data := some d, current_fn_index := fni, current_block := b,
          selected_edge := 0, path := pth ++ [cur], layout := lay, renderer := ren,
          context_id := cid, scale := sc, offset := off } b
      exact ⟨_, rfl, h1, h2, Or.inr ⟨by omega, h3, h4, Or.inr h5⟩⟩
    · rw [if_neg hrec]
      dsimp only [render]
      obtain ⟨h1, h2, h3, h4, h5, h6, h7⟩ := center_on_block_frame
        { data := some d, current_fn_index := fni, current_block := b,
          selected_edge := 0, path := pth, layout := lay, renderer := ren,
          context_id := cid, scale := sc, offset := off } b
      exact ⟨_, rfl, h1, h2, Or.inr ⟨by omega, h3, h4, Or.inl h5⟩⟩

end MirExplorer

/-- Every navigation transition returns normally on a valid loaded state
and preserves the navigation invariant. -/
lemma applyNav_preserves (d : ExplorerData) (hvalid : ValidData d)
    (s : MirExplorer) (hinv : NavInv d s) (op : NavOp) :
    ∃ s', applyNav s op = some s' ∧ NavInv d s' := by
  obtain ⟨hdata, func, block, hfn, hblock, hpath, hsel⟩ := hinv
  have hfvalid : ValidFunc func := hvalid.2 func (List.get?_mem hfn)
  have hcur : s.current_block < func.blocks.length := lt_of_get?_some hblock
  cases op with
  | selectFunction i =>
    show ∃ s', MirExplorer.select_function s i = some s' ∧ NavInv d s'
    by_cases hi : d.functions.length ≤ i
    · refine ⟨s, ?_, hdata, func, block, hfn, hblock, hpath, hsel⟩
      unfold MirExplorer.select_function
      rw [hdata]
      dsimp only
      rw [if_pos hi]
    · obtain ⟨func2, hfn2⟩ := get?_some_of_lt (l := d.functions) (i := i) (by omega)
      have hf2valid : ValidFunc func2 := hvalid.2 func2 (List.get?_mem hfn2)
      obtain ⟨layout, hlay, -⟩ := from_function_some func2
        (validFunc_id_lt func2 hf2valid) hf2valid.2.2
      obtain ⟨s1, hsel1, hd1, hfi1, hp1, hse1, -, hb1⟩ :=
        MirExplorer.select_function_spec s d i func2 layout hdata hfn2 hlay
      obtain ⟨blk, hblk⟩ := get?_some_of_lt (l := func2.blocks) hf2valid.1
      refine ⟨s1, hsel1, hd1, func2, blk, ?_, ?_, ?_, ?_⟩
      · rw [hfi1]
        exact hfn2
      · rw [hb1]
        exact hblk
      · rw [hp1]
        intro b hb
        simp at hb
      · rcases Nat.eq_zero_or_pos blk.terminator.edges.length with h | h
        · exact Or.inr ⟨h, hse1⟩
        · exact Or.inl (by omega)
  | goToBlock b =>
    show ∃ s', MirExplorer.go_to_block s b = some s' ∧ NavInv d s'
    unfold MirExplorer.go_to_block
    obtain ⟨s', hgo, hd', hfi', hcase⟩ :=
      MirExplorer.go_to_block_internal_inv s d func b true hdata hfn
    refine ⟨s', hgo, hd'.trans hdata, ?_⟩
    rcases hcase with ⟨-, hs⟩ | ⟨hb, hblk', hsel', hpath'⟩
    · subst hs
      exact ⟨func, block, hfn, hblock, hpath, hsel⟩
    · obtain ⟨blk, hblk⟩ := get?_some_of_lt (l := func.blocks) hb
      refine ⟨func, blk, by rw [hfi']; exact hfn, by rw [hblk']; exact hblk, ?_, ?_⟩
      · rcases hpath' with h | h <;> rw [h]
        · exact hpath
        · intro x hx
          rcases List.mem_append.mp hx with hx | hx
          · exact hpath x hx
          · rw [List.mem_singleton.mp hx]
            exact hcur
      · rcases Nat.eq_zero_or_pos blk.terminator.edges.length with h | h
        · exact Or.inr ⟨h, hsel'⟩
        · exact Or.inl (by omega)
  | goBack =>
    show ∃ s', some s.go_back = some s' ∧ NavInv d s'
    refine ⟨s.go_back, rfl, ?_⟩
    cases hp : s.path with
    | nil =>
      rw [MirExplorer.go_back_empty s hp]
      exact ⟨hdata, func, block, hfn, hblock, hpath, hsel⟩
    | cons p0 rest =>
      have hne : s.path ≠ [] := by rw [hp]; simp
      have hdecomp : s.path = s.path.dropLast ++ [s.path.getLast hne] :=
        (List.dropLast_append_getLast hne).symm
      obtain ⟨hb', hp', hse', hd', hfi', -, -⟩ :=
        MirExplorer.go_back_spec s s.path.dropLast (s.path.getLast hne) hdecomp
      have hlastmem : s.path.getLast hne ∈ s.path := List.getLast_mem hne
      obtain ⟨blk, hblk⟩ := get?_some_of_lt (l := func.blocks) (hpath _ hlastmem)
      refine ⟨hd'.trans hdata, func, blk, by rw [hfi']; exact hfn,
        by rw [hb']; exact hblk, ?_, ?_⟩
      · rw [hp']
        intro x hx
        exact hpath x (List.dropLast_subset _ hx)
      · rcases Nat.eq_zero_or_pos blk.terminator.edges.length with h | h
        · exact Or.inr ⟨h, hse'⟩
        · exact Or.inl (by omega)
  | reset =>
    show ∃ s', MirExplorer.reset s = some s' ∧ NavInv d s'
    unfold MirExplorer.reset
    dsimp only
    rw [hdata]
    dsimp only
    rw [hfn]
    dsimp only
    obtain ⟨s', hgo, hd', hfi', hcase⟩ := MirExplorer.go_to_block_internal_inv
      { s with data := some d, path := ([] : List Nat), selected_edge := 0 } d func
      func.entry_block false rfl hfn
    refine ⟨s', hgo, hd', ?_⟩
    rcases hcase with ⟨hge, -⟩ | ⟨hb, hblk', hsel', hpath'⟩
    · exact absurd hfvalid.1 (by omega)
    · obtain ⟨blk, hblk⟩ := get?_some_of_lt (l := func.blocks) hb
      refine ⟨func, blk, by rw [hfi']; exact hfn, by rw [hblk']; exact hblk, ?_, ?_⟩
      · rcases hpath' with h | h <;> rw [h]
        · intro x hx
          simp at hx
        · intro x hx
          simp only [List.nil_append, List.mem_singleton] at hx
          rw [hx]
          exact hcur
      · rcases Nat.eq_zero_or_pos blk.terminator.edges.length with h | h
        · exact Or.inr ⟨h, hsel'⟩
        · exact Or.inl (by omega)
  | followEdge i =>
    show ∃ s', MirExplorer.follow_edge s i = some s' ∧ NavInv d s'
    unfold MirExplorer.follow_edge
    rw [hdata]
    dsimp only
    rw [hfn]
    dsimp only
    rw [hblock]
    dsimp only
    cases hedge : block.terminator.edges.get? i with
    | none => exact ⟨s, rfl, hdata, func, block, hfn, hblock, hpath, hsel⟩
    | some edge =>
      have htgt : edge.target < func.blocks.length :=
        hfvalid.2.2 block (List.get?_mem hblock) edge (List.get?_mem hedge)
      unfold MirExplorer.go_to_block
      obtain ⟨s', hgo, hd', hfi', hcase⟩ :=
        MirExplorer.go_to_block_internal_inv s d func edge.target true hdata hfn
      refine ⟨s', hgo, hd'.trans hdata, ?_⟩
      rcases hcase with ⟨hge, -⟩ | ⟨hb, hblk', hsel', hpath'⟩
      · omega
      · obtain ⟨blk, hblk⟩ := get?_some_of_lt (l := func.blocks) hb
        refine ⟨func, blk, by rw [hfi']; exact hfn, by rw [hblk']; exact hblk, ?_, ?_⟩
        · rcases hpath' with h | h <;> rw [h]
          · exact hpath
          · intro x hx
            rcases List.mem_append.mp hx with hx | hx
            · exact hpath x hx
            · rw [List.mem_singleton.mp hx]
              exact hcur
        · rcases Nat.eq_zero_or_pos blk.terminator.edges.length with h | h
          · exact Or.inr ⟨h, hsel'⟩
          · exact Or.inl (by omega)
  | selectNextEdge =>
    show ∃ s', MirExplorer.select_next_edge s = some s' ∧ NavInv d s'
    unfold MirExplorer.select_next_edge
    rw [hdata]
    dsimp only
    rw [hfn]
    dsimp only
    rw [hblock]
    dsimp only
    by_cases hec : 0 < block.terminator.edges.length
    · rw [if_pos hec]
      dsimp only [MirExplorer.render]
      refine ⟨_, rfl, rfl, func, block, hfn, hblock, hpath, ?_⟩
      exact Or.inl (Nat.mod_lt _ hec)
    · rw [if_neg hec]
      exact ⟨s, rfl, hdata, func, block, hfn, hblock, hpath, hsel⟩
  | selectPrevEdge =>
    show ∃ s', MirExplorer.select_prev_edge s = some s' ∧ NavInv d s'
    unfold MirExplorer.select_prev_edge
    rw [hdata]
    dsimp only
    rw [hfn]
    dsimp only
    rw [hblock]
    dsimp only
    by_cases hec : 0 < block.terminator.edges.length
    · rw [if_pos hec]
      dsimp only [MirExplorer.render]
      refine ⟨_, rfl, rfl, func, block, hfn, hblock, hpath, ?_⟩
      refine Or.inl ?_
      by_cases h0 : s.selected_edge = 0
      · rw [if_pos h0]
        show block.terminator.edges.length - 1 < block.terminator.edges.length
        omega
      · rw [if_neg h0]
        show s.selected_edge - 1 < block.terminator.edges.length
        rcases hsel with h | h
        · omega
        · omega
    · rw [if_neg hec]
      exact ⟨s, rfl, hdata, func, block, hfn, hblock, hpath, hsel⟩

/-- A successful load of a valid document establishes the navigation
invariant. -/
lemma load_json_navinv (s : MirExplorer) (d : ExplorerData) (s0 : MirExplorer)
    (hvalid : ValidData d)
    (hload : MirExplorer.load_json s (some d) = some (s0, none)) :
    NavInv d s0 := by
  have hpos : 0 < d.functions.length := by
    cases hl : d.functions with
    | nil => exact absurd hl hvalid.1
    | cons a l => simp
  have hne : ¬ d.functions.isEmpty := by
    cases hl : d.functions with
    | nil => exact absurd hl hvalid.1
    | cons a l => simp
  obtain ⟨f0, hf0⟩ := get?_some_of_lt (l := d.functions) (i := 0) hpos
  have hf0valid : ValidFunc f0 := hvalid.2 f0 (List.get?_mem hf0)
  obtain ⟨layout, hlay, -⟩ := from_function_some f0
    (validFunc_id_lt f0 hf0valid) hf0valid.2.2
  obtain ⟨s1, hsel, hd1, hfi1, hp1, hse1, -, hb1⟩ :=
    MirExplorer.select_function_spec { s with data := some d } d 0 f0 layout rfl hf0 hlay
  unfold MirExplorer.load_json at hload
  dsimp only at hload
  rw [if_neg hne, hsel] at hload
  injection hload with hpair
  have hs0 : s1 = s0 := congrArg Prod.fst hpair
  subst hs0
  obtain ⟨blk, hblk⟩ := get?_some_of_lt (l := f0.blocks) hf0valid.1
  refine ⟨hd1, f0, blk, by rw [hfi1]; exact hf0, by rw [hb1]; exact hblk, ?_, ?_⟩
  · rw [hp1]
    intro x hx
    simp at hx
  · rcases Nat.eq_zero_or_pos blk.terminator.edges.length with h | h
    · exact Or.inr ⟨h, hse1⟩
    · exact Or.inl (by omega)

/-- Sequences of navigation transitions preserve the invariant. -/
lemma applyNavSeq_preserves (d : ExplorerData) (hvalid : ValidData d)
    (ops : List NavOp) (s : MirExplorer) (hinv : NavInv d s) :
    ∃ s', applyNavSeq s ops = some s' ∧ NavInv d s' := by
  unfold applyNavSeq
  exact foldlM_some_invariant applyNav (NavInv d) ops
    (fun b a _ hb => applyNav_preserves d hvalid b hb a) s hinv

/-- C8: for every valid loaded document and every sequence of navigation
transitions, every transition returns normally and the selected edge index
stays valid for the current block — strictly below its outgoing-edge count,
or 0 when that count is 0. -/
theorem c8_selected_edge_invariant (d : ExplorerData) (spre s0 : MirExplorer)
    (ops : List NavOp)
    (hvalid : ValidData d)
    (hload : MirExplorer.load_json spre (some d) = some (s0, none)) :
    ∃ s', applyNavSeq s0 ops = some s' ∧
      ∃ func block,
        d.functions.get? s'.current_fn_index = some func ∧
        func.blocks.get? s'.current_block = some block ∧
        (s'.selected_edge < block.terminator.edges.length ∨
          (block.terminator.edges.length = 0 ∧ s'.selected_edge = 0)) := by
  obtain ⟨s', hseq, hinv'⟩ := applyNavSeq_preserves d hvalid ops s0
    (load_json_navinv spre d s0 hvalid hload)
  obtain ⟨-, func, block, hfn, hblock, -, hsel⟩ := hinv'
  exact ⟨s', hseq, func, block, hfn, hblock, hsel⟩

/-- C8 witness: the scenario document with a concrete operation sequence. -/
theorem c8_selected_edge_invariant_witness :
    (ValidData scenDoc ∧
      MirExplorer.load_json initExplorer (some scenDoc) = some (loadedScen, none)) ∧
    ∃ s', applyNavSeq loadedScen
        [NavOp.selectNextEdge, NavOp.followEdge 0, NavOp.goBack,
         NavOp.goToBlock 2, NavOp.reset] = some s' ∧
      ∃ func block,
        scenDoc.functions.get? s'.current_fn_index = some func ∧
        func.blocks.get? s'.current_block = some block ∧
        (s'.selected_edge < block.terminator.edges.length ∨
          (block.terminator.edges.length = 0 ∧ s'.selected_edge = 0)) := by
  refine ⟨⟨by decide, by decide⟩, ?_⟩
  exact c8_selected_edge_invariant scenDoc initExplorer loadedScen _ (by decide) (by decide)

lemma isBfsDist_entry (succs : List (Nat × List Nat)) (entry : Nat) :
    IsBfsDist succs entry entry 0 :=
  ⟨ReachIn.refl, fun j hj => absurd hj (by omega)⟩

lemma isBfsDist_unique {succs : List (Nat × List Nat)} {entry m k k' : Nat}
    (h : IsBfsDist succs entry m k) (h' : IsBfsDist succs entry m k') : k = k' := by
  rcases Nat.lt_trichotomy k k' with hlt | heq | hgt
  · exact absurd h.1 (h'.2 k hlt)
  · exact heq
  · exact absurd h'.1 (h.2 k' hgt)

lemma exists_isBfsDist {succs : List (Nat × List Nat)} {entry : Nat} :
    ∀ (k m : Nat), ReachIn succs entry k m → ∃ d ≤ k, IsBfsDist succs entry m d := by
  intro k
  induction k using Nat.strong_induction_on with
  | _ k ih =>
    intro m hreach
    by_cases hleast : ∀ j < k, ¬ ReachIn succs entry j m
    · exact ⟨k, le_refl k, hreach, hleast⟩
    · push_neg at hleast
      obtain ⟨j, hj, hreachj⟩ := hleast
      obtain ⟨d, hd, hdist⟩ := ih j hj m hreachj
      exact ⟨d, by omega, hdist⟩

lemma isBfsDist_inv {succs : List (Nat × List Nat)} {entry m k : Nat}
    (h : IsBfsDist succs entry m (k + 1)) :
    ∃ p, m ∈ succLookup succs p ∧ IsBfsDist succs entry p k := by
  obtain ⟨hreach, hleast⟩ := h
  cases hreach with
  | step hp hs =>
    rename_i p
    refine ⟨p, hs, hp, ?_⟩
    intro j hj hreachj
    exact hleast (j + 1) (by omega) (ReachIn.step hreachj hs)

/-- Characterization of the inner BFS loop of `compute_layers` in terms of
`freshList`. -/
lemma bfsPush_fold_spec (layer : Nat) :
    ∀ (succs : List Nat) (visited : Finset Nat) (queue : List (Nat × Nat)),
      (succs.foldl (bfsPush layer) (visited, queue)).1
          = visited ∪ (freshList visited succs).toFinset ∧
      (succs.foldl (bfsPush layer) (visited, queue)).2
          = queue ++ (freshList visited succs).map (fun s => (s, layer + 1)) ∧
      (freshList visited succs).Nodup ∧
      (∀ x ∈ freshList visited succs, x ∈ succs ∧ x ∉ visited) ∧
      (∀ x ∈ succs, x ∈ visited ∪ (freshList visited succs).toFinset) := by
  intro succs
  induction succs with
  | nil =>
    intro visited queue
    refine ⟨by simp [freshList], by simp [freshList], by simp [freshList], ?_, ?_⟩
    · intro x hx
      simp [freshList] at hx
    · intro x hx
      simp at hx
  | cons s rest ih =>
    intro visited queue
    rw [List.foldl_cons]
    by_cases hs : s ∈ visited
    · have hstep : bfsPush layer (visited, queue) s = (visited, queue) := by
        unfold bfsPush
        rw [if_pos hs]
      rw [hstep]
      obtain ⟨h1, h2, h3, h4, h5⟩ := ih visited queue
      rw [show freshList visited (s :: rest) = freshList visited rest from by
        simp [freshList, hs]]
      refine ⟨h1, h2, h3, fun x hx => ⟨List.mem_cons_of_mem _ (h4 x hx).1, (h4 x hx).2⟩, ?_⟩
      intro x hx
      rcases List.mem_cons.mp hx with h | h
      · subst h
        exact Finset.mem_union_left _ hs
      · exact h5 x h
    · have hstep : bfsPush layer (visited, queue) s
          = (insert s visited, queue ++ [(s, layer + 1)]) := by
        unfold bfsPush
        rw [if_neg hs]
      rw [hstep]
      obtain ⟨h1, h2, h3, h4, h5⟩ := ih (insert s visited) (queue ++ [(s, layer + 1)])
      rw [show freshList visited (s :: rest) = s :: freshList (insert s visited) rest from by
        simp [freshList, hs]]
      refine ⟨?_, ?_, ?_, ?_, ?_⟩
      · rw [h1]
        ext x
        simp only [Finset.mem_union, Finset.mem_insert, List.mem_toFinset, List.mem_cons]
        tauto
      · rw [h2, List.map_cons, List.append_assoc]
        rfl
      · refine List.Nodup.cons ?_ h3
        intro hmem
        exact ((h4 s hmem).2) (Finset.mem_insert_self s visited)
      · intro x hx
        rcases List.mem_cons.mp hx with h | h
        · subst h
          exact ⟨List.mem_cons_self _ _, hs⟩
        · obtain ⟨hin, hnotin⟩ := h4 x h
          exact ⟨List.mem_cons_of_mem _ hin,
            fun hc => hnotin (Finset.mem_insert_of_mem hc)⟩
      · intro x hx
        rcases List.mem_cons.mp hx with h | h
        · subst h
          simp
        · have := h5 x h
          rcases Finset.mem_union.mp this with h' | h'
          · rcases Finset.mem_insert.mp h' with h'' | h''
            · subst h''
              simp
            · exact Finset.mem_union_left _ h''
          · refine Finset.mem_union_right _ ?_
            rw [List.mem_toFinset] at h' ⊢
            exact List.mem_cons_of_mem _ h'

lemma hmInsert_of_not_mem {α : Type} (m : List (Nat × α)) (k : Nat) (v : α)
    (h : k ∉ m.map (·.1)) : hmInsert m k v = m ++ [(k, v)] := by
  unfold hmInsert
  rw [if_neg]
  intro hsome
  obtain ⟨l, hl⟩ := Option.isSome_iff_exists.mp hsome
  exact h (List.mem_map.mpr ⟨(k, l), lookup_mem hl, rfl⟩)

lemma sorted_const_le (c : Nat) : ∀ (l : List Nat),
    List.Sorted (· ≤ ·) (l.map (fun _ => c)) := by
  intro l
  induction l with
  | nil => simp
  | cons x r ih =>
    rw [List.map_cons, List.sorted_cons]
    refine ⟨?_, ih⟩
    intro b hb
    obtain ⟨y, -, hy⟩ := List.mem_map.mp hb
    omega

/-- The invariant holds at the start of the BFS. -/
lemma bfsInv_init (succs : List (Nat × List Nat)) (entry : Nat) :
    BfsInv succs entry [] {entry} [(entry, 0)] := by
  refine ⟨?_, ?_, ?_, ?_, ?_, ?_, ?_, ?_, ?_⟩
  · intro p hp
    simp at hp
  · intro p hp
    rw [List.mem_singleton.mp hp]
    exact isBfsDist_entry succs entry
  · simp
  · intro p hp q hq
    rw [List.mem_singleton.mp hp, List.mem_singleton.mp hq]
    omega
  · simp
  · simp
  · intro p hp
    simp at hp
  · simp
  · intro m dm hdm hm hd hhd
    injection hhd with hhd
    subst hhd
    show 0 < dm
    rcases Nat.eq_zero_or_pos dm with h | h
    · subst h
      cases hdm.1
      exact absurd (Finset.mem_singleton_self entry) hm
    · exact h

lemma map_fst_pair (c : Nat) (l : List Nat) :
    (l.map (fun s => (s, c))).map (·.1) = l := by
  induction l with
  | nil => rfl
  | cons x r ih => simp [ih]

/-- One BFS iteration preserves the invariant. -/
lemma bfsInv_step (succs : List (Nat × List Nat)) (entry : Nat)
    (lm : List (Nat × Nat)) (visited : Finset Nat)
    (node layer : Nat) (rest : List (Nat × Nat))
    (hinv : BfsInv succs entry lm visited ((node, layer) :: rest)) :
    BfsInv succs entry (hmInsert lm node layer)
      ((succLookup succs node).foldl (bfsPush layer) (visited, rest)).1
      ((succLookup succs node).foldl (bfsPush layer) (visited, rest)).2 := by
  obtain ⟨lm_dist, q_dist, q_sorted, q_spread, visited_eq, keys_nodup,
    popped_closed, entry_visited, unvisited_far⟩ := hinv
  obtain ⟨hv', hq', hfreshnodup, hfreshmem, hsucc_cov⟩ :=
    bfsPush_fold_spec layer (succLookup succs node) visited rest
  set fresh := freshList visited (succLookup succs node) with hfresh
  have hnode_dist : IsBfsDist succs entry node layer :=
    q_dist (node, layer) (List.mem_cons_self _ _)
  have hnode_notin_lm : node ∉ lm.map (·.1) := by
    intro hmem
    rw [List.nodup_append] at keys_nodup
    exact keys_nodup.2.2 hmem (by simp)
  have hlm' : hmInsert lm node layer = lm ++ [(node, layer)] :=
    hmInsert_of_not_mem _ _ _ hnode_notin_lm
  have hlayer_min : ∀ b ∈ rest.map (·.2), layer ≤ b := by
    have h := q_sorted
    rw [List.map_cons, List.sorted_cons] at h
    exact h.1
  have hrest_sorted : List.Sorted (· ≤ ·) (rest.map (·.2)) := by
    have h := q_sorted
    rw [List.map_cons, List.sorted_cons] at h
    exact h.2
  have hfresh_dist : ∀ s ∈ fresh, IsBfsDist succs entry s (layer + 1) := by
    intro s hs
    obtain ⟨hs_succ, hs_unvis⟩ := hfreshmem s hs
    refine ⟨ReachIn.step hnode_dist.1 hs_succ, ?_⟩
    intro j hj hreach
    obtain ⟨ds, hds_le, hds⟩ := exists_isBfsDist j s hreach
    have := unvisited_far s ds hds hs_unvis (node, layer) rfl
    omega
  have hclaim : (∀ pp ∈ rest, layer + 1 ≤ pp.2) →
      ∀ m dm, IsBfsDist succs entry m dm →
        m ∉ visited ∪ fresh.toFinset → dm ≠ layer + 1 := by
    intro hall m dm hdm hm' hcontra
    subst hcontra
    have hm_unvis : m ∉ visited := fun h => hm' (Finset.mem_union_left _ h)
    obtain ⟨pr, hpr_succ, hpr_dist⟩ := isBfsDist_inv hdm
    by_cases hpr_vis : pr ∈ visited
    · rw [visited_eq] at hpr_vis
      rcases Finset.mem_union.mp hpr_vis with h | h
      · rw [List.mem_toFinset] at h
        obtain ⟨pp, hpp, hpp1⟩ := List.mem_map.mp h
        exact hm_unvis (popped_closed pp hpp m (by rw [hpp1]; exact hpr_succ))
      · rw [List.mem_toFinset, List.map_cons] at h
        rcases List.mem_cons.mp h with h | h
        · rw [show (node, layer).1 = node from rfl] at h
          subst h
          exact hm' (hsucc_cov m hpr_succ)
        · obtain ⟨pp, hpp, hpp1⟩ := List.mem_map.mp h
          have hppdist : IsBfsDist succs entry pr pp.2 := by
            rw [← hpp1]
            exact q_dist pp (List.mem_cons_of_mem _ hpp)
          have : pp.2 = layer := isBfsDist_unique hppdist hpr_dist
          have := hall pp hpp
          omega
    · have := unvisited_far pr layer hpr_dist hpr_vis (node, layer) rfl
      omega
  rw [hlm', hv', hq']
  refine ⟨?_, ?_, ?_, ?_, ?_, ?_, ?_, ?_, ?_⟩
  · intro p hp
    rcases List.mem_append.mp hp with h | h
    · exact lm_dist p h
    · rw [List.mem_singleton.mp h]
      exact hnode_dist
  · intro p hp
    rcases List.mem_append.mp hp with h | h
    · exact q_dist p (List.mem_cons_of_mem _ h)
    · obtain ⟨s, hs, hs1⟩ := List.mem_map.mp h
      rw [← hs1]
      exact hfresh_dist s hs
  · rw [List.map_append]
    unfold List.Sorted
    rw [List.pairwise_append]
    refine ⟨hrest_sorted, ?_, ?_⟩
    · rw [List.map_map]
      exact sorted_const_le (layer + 1) fresh
    · intro a ha b hb
      rw [List.map_map] at hb
      obtain ⟨s, -, hs1⟩ := List.mem_map.mp hb
      obtain ⟨pp, hpp, hpp1⟩ := List.mem_map.mp ha
      have hb' : b = layer + 1 := by simpa using hs1.symm
      have ha' : a = pp.2 := by simpa using hpp1.symm
      have := q_spread pp (List.mem_cons_of_mem _ hpp) (node, layer)
        (List.mem_cons_self _ _)
      omega
  · intro p hp q hq
    have hmem2 : ∀ r, r ∈ rest ++ fresh.map (fun s => (s, layer + 1)) →
        (r ∈ rest ∧ layer ≤ r.2 ∧ r.2 ≤ layer + 1) ∨ r.2 = layer + 1 := by
      intro r hr
      rcases List.mem_append.mp hr with h | h
      · refine Or.inl ⟨h, ?_, ?_⟩
        · exact hlayer_min r.2 (List.mem_map.mpr ⟨r, h, rfl⟩)
        · have := q_spread r (List.mem_cons_of_mem _ h) (node, layer)
            (List.mem_cons_self _ _)
          omega
      · obtain ⟨s, -, hs1⟩ := List.mem_map.mp h
        exact Or.inr (by rw [← hs1])
    rcases hmem2 p hp with ⟨-, hp1, hp2⟩ | hp1 <;>
      rcases hmem2 q hq with ⟨-, hq1, hq2⟩ | hq1 <;> omega
  · rw [visited_eq]
    have hfreshkeys : (fresh.map (fun s => (s, layer + 1))).map (·.1) = fresh :=
      map_fst_pair (layer + 1) fresh
    simp only [List.map_append, List.map_cons, List.toFinset_append, List.toFinset_cons,
      hfreshkeys]
    ext x
    simp only [Finset.mem_union, Finset.mem_insert, List.mem_toFinset,
      Finset.mem_singleton, Finset.not_mem_empty]
    tauto
  · have hgoal_eq : (lm ++ [(node, layer)]).map (·.1)
        ++ (rest ++ fresh.map (fun s => (s, layer + 1))).map (·.1)
        = (lm.map (·.1) ++ ((node, layer) :: rest).map (·.1))
          ++ (fresh.map (fun s => (s, layer + 1))).map (·.1) := by
      simp only [List.map_append, List.map_cons, List.map_nil, List.append_assoc,
        List.cons_append, List.nil_append]
    rw [hgoal_eq]
    rw [List.nodup_append]
    refine ⟨keys_nodup, ?_, ?_⟩
    · rw [show (fresh.map (fun s => (s, layer + 1))).map (·.1) = fresh from
        map_fst_pair (layer + 1) fresh]
      exact hfreshnodup
    · intro a ha hb
      rw [List.map_map] at hb
      obtain ⟨s, hs, hs1⟩ := List.mem_map.mp hb
      have hsun : s ∉ visited := (hfreshmem s hs).2
      apply hsun
      rw [visited_eq]
      rcases List.mem_append.mp ha with h | h
      · exact Finset.mem_union_left _ (by rw [← hs1] at h; exact List.mem_toFinset.mpr h)
      · exact Finset.mem_union_right _ (by rw [← hs1] at h; exact List.mem_toFinset.mpr h)
  · intro p hp s hs
    rcases List.mem_append.mp hp with h | h
    · exact Finset.mem_union_left _ (popped_closed p h s hs)
    · have hp_eq : p = (node, layer) := List.mem_singleton.mp h
      rw [hp_eq] at hs
      exact hsucc_cov s hs
  · exact Finset.mem_union_left _ entry_visited
  · intro m dm hdm hm' hd hhd
    have hm_unvis : m ∉ visited := fun h => hm' (Finset.mem_union_left _ h)
    have h1 : layer < dm := unvisited_far m dm hdm hm_unvis (node, layer) rfl
    cases hrest_case : rest with
    | nil =>
      subst hrest_case
      rw [List.nil_append] at hhd
      have hhd_mem : hd ∈ fresh.map (fun s => (s, layer + 1)) :=
        List.mem_of_mem_head? hhd
      obtain ⟨s, -, hs1⟩ := List.mem_map.mp hhd_mem
      have hne : dm ≠ layer + 1 := hclaim (by intro pp hpp; simp at hpp) m dm hdm hm'
      rw [← hs1]
      show layer + 1 < dm
      omega
    | cons r0 rrest =>
      subst hrest_case
      rw [List.cons_append] at hhd
      have hd_eq : hd = r0 := by
        injection hhd with h2
        exact h2.symm
      rw [hd_eq]
      have hr0_le : r0.2 ≤ layer + 1 := by
        have := q_spread r0 (List.mem_cons_of_mem _ (List.mem_cons_self _ _))
          (node, layer) (List.mem_cons_self _ _)
        omega
      by_cases hcase : r0.2 ≤ layer
      · omega
      · have hd_eq2 : r0.2 = layer + 1 := by omega
        have hall : ∀ pp ∈ r0 :: rrest, layer + 1 ≤ pp.2 := by
          intro pp hpp
          rcases List.mem_cons.mp hpp with h | h
          · rw [h, hd_eq2]
          · have hsorted2 := hrest_sorted
            rw [List.map_cons, List.sorted_cons] at hsorted2
            have := hsorted2.1 pp.2 (List.mem_map.mpr ⟨pp, h, rfl⟩)
            omega
        have hne : dm ≠ layer + 1 := hclaim hall m dm hdm hm'
        omega

/-- With an empty queue, every reachable node has been visited. -/
lemma bfsInv_closure (succs : List (Nat × List Nat)) (entry : Nat)
    (lm : List (Nat × Nat)) (visited : Finset Nat)
    (hinv : BfsInv succs entry lm visited []) :
    ∀ (k m : Nat), ReachIn succs entry k m → m ∈ visited := by
  intro k
  induction k with
  | zero =>
    intro m h
    cases h
    exact hinv.entry_visited
  | succ k ih =>
    intro m h
    cases h with
    | step hp hs =>
      rename_i p
      have hpvis := ih p hp
      rw [hinv.visited_eq] at hpvis
      rcases Finset.mem_union.mp hpvis with h' | h'
      · rw [List.mem_toFinset] at h'
        obtain ⟨pp, hpp, hpp1⟩ := List.mem_map.mp h'
        exact hinv.popped_closed pp hpp m (by rw [hpp1]; exact hs)
      · simp at h'

lemma lookup_eq_of_mem_nodup {α : Type} :
    ∀ {l : List (Nat × α)}, (l.map (·.1)).Nodup →
      ∀ {k : Nat} {v : α}, (k, v) ∈ l → l.lookup k = some v := by
  intro l
  induction l with
  | nil =>
    intro _ k v hmem
    simp at hmem
  | cons p rest ih =>
    intro hnodup k v hmem
    rw [List.map_cons, List.nodup_cons] at hnodup
    rcases List.mem_cons.mp hmem with h | h
    · rw [← h]
      rw [List.lookup]
      simp
    · have hk_ne : k ≠ p.1 := by
        intro hk
        exact hnodup.1 (List.mem_map.mpr ⟨(k, v), h, by rw [hk]⟩)
      rw [List.lookup, beq_eq_false_iff_ne.mpr hk_ne]
      exact ih hnodup.2 h

/-- The layer map computed by the BFS of `compute_layers` pairs exactly the
reachable nodes with their BFS distances, with no duplicate keys. -/
lemma bfsInv_final (succs : List (Nat × List Nat)) (entry : Nat)
    (lm : List (Nat × Nat)) (visited : Finset Nat)
    (hinv : BfsInv succs entry lm visited []) :
    (∀ p ∈ lm, IsBfsDist succs entry p.1 p.2) ∧
    (∀ m dm, IsBfsDist succs entry m dm → (m, dm) ∈ lm) ∧
    (lm.map (·.1)).Nodup := by
  have hnodup : (lm.map (·.1)).Nodup := by
    have := hinv.keys_nodup
    simpa using this
  refine ⟨hinv.lm_dist, ?_, hnodup⟩
  intro m dm hdm
  have hmvis : m ∈ visited := bfsInv_closure succs entry lm visited hinv dm m hdm.1
  rw [hinv.visited_eq] at hmvis
  rcases Finset.mem_union.mp hmvis with h | h
  · rw [List.mem_toFinset] at h
    obtain ⟨pp, hpp, hpp1⟩ := List.mem_map.mp h
    have hppdist := hinv.lm_dist pp hpp
    rw [hpp1] at hppdist
    have : pp.2 = dm := isBfsDist_unique hppdist hdm
    have hpp_eq : pp = (m, dm) := by
      obtain ⟨a, b⟩ := pp
      simp only at hpp1 this
      rw [hpp1, this]
    rw [← hpp_eq]
    exact hpp
  · simp at h

/-- The fuelled BFS loop, run from any invariant-satisfying state with
sufficient fuel, produces exactly the reachable-node distance map. -/
lemma bfsLoopFuel_inv (succs : List (Nat × List Nat)) (entry : Nat) :
    ∀ (fuel : Nat) (lm : List (Nat × Nat)) (visited : Finset Nat)
      (queue : List (Nat × Nat)),
      bfsMeasure succs visited queue ≤ fuel →
      BfsInv succs entry lm visited queue →
      (∀ p ∈ bfsLoopFuel succs fuel lm visited queue, IsBfsDist succs entry p.1 p.2) ∧
      (∀ m dm, IsBfsDist succs entry m dm →
        (m, dm) ∈ bfsLoopFuel succs fuel lm visited queue) ∧
      ((bfsLoopFuel succs fuel lm visited queue).map (·.1)).Nodup := by
  intro fuel
  induction fuel with
  | zero =>
    intro lm visited queue hfuel hinv
    cases queue with
    | nil => exact bfsInv_final succs entry lm visited hinv
    | cons p rest =>
      exfalso
      unfold bfsMeasure at hfuel
      simp only [List.length_cons] at hfuel
      omega
  | succ fuel ih =>
    intro lm visited queue hfuel hinv
    cases queue with
    | nil => exact bfsInv_final succs entry lm visited hinv
    | cons p rest =>
      obtain ⟨node, layer⟩ := p
      have heq : bfsLoopFuel succs (fuel + 1) lm visited ((node, layer) :: rest)
          = bfsLoopFuel succs fuel (hmInsert lm node layer)
              ((succLookup succs node).foldl (bfsPush layer) (visited, rest)).1
              ((succLookup succs node).foldl (bfsPush layer) (visited, rest)).2 := rfl
      rw [heq]
      have hstep := bfsMeasure_step succs visited node layer rest
      exact ih _ _ _ (by omega) (bfsInv_step succs entry lm visited node layer rest hinv)

/-- The BFS layer map of `compute_layers` is exactly the distance map of
the reachable nodes. -/
lemma bfsLayerMap_spec (entry : Nat) (succs : List (Nat × List Nat)) :
    (∀ p ∈ bfsLayerMap entry succs, IsBfsDist succs entry p.1 p.2) ∧
    (∀ m dm, IsBfsDist succs entry m dm → (m, dm) ∈ bfsLayerMap entry succs) ∧
    ((bfsLayerMap entry succs).map (·.1)).Nodup := by
  unfold bfsLayerMap bfsLoop
  exact bfsLoopFuel_inv succs entry _ _ _ _ (le_refl _) (bfsInv_init succs entry)

lemma orInsert_fold_lookup_preserve (v : Nat) :
    ∀ (ids : List Nat) (m0 : List (Nat × Nat)) (i : Nat) (w : Nat),
      m0.lookup i = some w →
      (ids.foldl (fun m id => if (m.lookup id).isSome then m else m ++ [(id, v)]) m0).lookup i
        = some w := by
  intro ids
  induction ids with
  | nil => intro m0 i w h; exact h
  | cons id rest ih =>
    intro m0 i w h
    rw [List.foldl_cons]
    by_cases hid : (m0.lookup id).isSome
    · rw [if_pos hid]
      exact ih m0 i w h
    · rw [if_neg hid]
      exact ih _ i w (lookup_append_of_some h)

lemma orInsert_fold_lookup_of_missing (v : Nat) :
    ∀ (ids : List Nat) (m0 : List (Nat × Nat)) (i : Nat),
      i ∈ ids → m0.lookup i = none →
      (ids.foldl (fun m id => if (m.lookup id).isSome then m else m ++ [(id, v)]) m0).lookup i
        = some v := by
  intro ids
  induction ids with
  | nil =>
    intro m0 i hmem _
    simp at hmem
  | cons id rest ih =>
    intro m0 i hmem hnone
    rw [List.foldl_cons]
    by_cases hii : id = i
    · subst hii
      rw [if_neg (by rw [hnone]; simp)]
      refine orInsert_fold_lookup_preserve v rest _ id v ?_
      rw [lookup_append_of_none _ hnone]
      rw [List.lookup]
      simp
    · have hrest : i ∈ rest := by
        rcases List.mem_cons.mp hmem with h | h
        · exact absurd h.symm hii
        · exact h
      by_cases hid : (m0.lookup id).isSome
      · rw [if_pos hid]
        exact ih m0 i hrest hnone
      · rw [if_neg hid]
        refine ih _ i hrest ?_
        rw [lookup_append_of_none _ hnone, List.lookup,
          beq_eq_false_iff_ne.mpr (fun h => hii h.symm)]
        rfl

lemma lookup_eq_none_of_forall {α : Type} (l : List (Nat × α)) (k : Nat)
    (h : ∀ p ∈ l, p.1 ≠ k) : l.lookup k = none := by
  cases hl : l.lookup k with
  | none => rfl
  | some v => exact absurd rfl (h (k, v) (lookup_mem hl))

/-- C5: the layer assignment of `compute_layers` on a valid `FunctionDoc`:
the entry block gets layer 0, every reachable block gets its BFS distance
from the entry as its layer, and every unreachable block gets the single
layer `max discovered layer + 1`. -/
theorem c5_layer_assignment (f : ExplorerFunction) (_hvalid : ValidFunc f) :
    (finalLayerMap f.entry_block f.blocks.length (buildSuccessors f)).lookup f.entry_block
      = some 0 ∧
    (∀ b < f.blocks.length,
      Reachable (buildSuccessors f) f.entry_block b →
      ∃ db, IsBfsDist (buildSuccessors f) f.entry_block b db ∧
        (finalLayerMap f.entry_block f.blocks.length (buildSuccessors f)).lookup b
          = some db) ∧
    (∀ b < f.blocks.length,
      ¬ Reachable (buildSuccessors f) f.entry_block b →
      (finalLayerMap f.entry_block f.blocks.length (buildSuccessors f)).lookup b
        = some (valuesMax (bfsLayerMap f.entry_block (buildSuccessors f)) + 1)) := by
  obtain ⟨hdist, hcomplete, hnodup⟩ := bfsLayerMap_spec f.entry_block (buildSuccessors f)
  have hpresv : ∀ b db,
      (bfsLayerMap f.entry_block (buildSuccessors f)).lookup b = some db →
      (finalLayerMap f.entry_block f.blocks.length (buildSuccessors f)).lookup b
        = some db := by
    intro b db hb
    unfold finalLayerMap
    exact orInsert_fold_lookup_preserve _ _ _ b db hb
  refine ⟨?_, ?_, ?_⟩
  · exact hpresv f.entry_block 0
      (lookup_eq_of_mem_nodup hnodup
        (hcomplete f.entry_block 0 (isBfsDist_entry _ _)))
  · intro b _ hreach
    obtain ⟨k, hk⟩ := hreach
    obtain ⟨db, -, hdb⟩ := exists_isBfsDist k b hk
    exact ⟨db, hdb,
      hpresv b db (lookup_eq_of_mem_nodup hnodup (hcomplete b db hdb))⟩
  · intro b hb hunreach
    have hnone : (bfsLayerMap f.entry_block (buildSuccessors f)).lookup b = none := by
      refine lookup_eq_none_of_forall _ b ?_
      intro p hp hp1
      exact hunreach ⟨p.2, by rw [← hp1]; exact (hdist p hp).1⟩
    unfold finalLayerMap
    exact orInsert_fold_lookup_of_missing _ _ _ b (List.mem_range.mpr hb) hnone

/-- C5 witness: the cycle function with an unreachable block; the theorem
applies to it. -/
theorem c5_layer_assignment_witness :
    ValidFunc cycFn ∧
    ((finalLayerMap cycFn.entry_block cycFn.blocks.length (buildSuccessors cycFn)).lookup
        cycFn.entry_block = some 0 ∧
     (∀ b < cycFn.blocks.length,
       Reachable (buildSuccessors cycFn) cycFn.entry_block b →
       ∃ db, IsBfsDist (buildSuccessors cycFn) cycFn.entry_block b db ∧
         (finalLayerMap cycFn.entry_block cycFn.blocks.length (buildSuccessors cycFn)).lookup b
           = some db) ∧
     (∀ b < cycFn.blocks.length,
       ¬ Reachable (buildSuccessors cycFn) cycFn.entry_block b →
       (finalLayerMap cycFn.entry_block cycFn.blocks.length (buildSuccessors cycFn)).lookup b
         = some (valuesMax (bfsLayerMap cycFn.entry_block (buildSuccessors cycFn)) + 1))) :=
  ⟨by decide, c5_layer_assignment cycFn (by decide)⟩
